import Mathlib

/-!
Verification of the default revset engine (src/lib/src/default_revset_engine.rs).

The engine manipulates streams of index entries ordered by strictly descending
index position.  We embed the operator nodes (Eager, Walk, Filter, Union,
Intersection, Difference and the predicate-only nodes), the stateful predicate
closures produced by to_predicate_fn, the evaluator branches (Roots, Latest,
generation ranges) and the IdIndex prefix machinery as executable Lean
definitions, and prove the specified properties about them.
-/

set_option maxHeartbeats 1000000

namespace Revset

/-- An index entry handle.  The composite index exposes for every commit its
position (a totally ordered integer, newer means larger), its commit id, its
parent positions, and (through the store) the committer timestamp in
milliseconds, which is the only piece of commit metadata the claims need.
Commit ids and change ids are abstracted to naturals. -/
structure IndexEntry where
  pos : Nat
  cid : Nat
  parents : List Nat
  ts : Int
deriving DecidableEq

/-- A stream is in the revset iteration order when its positions are strictly
descending (which also makes them pairwise distinct). -/
def StrictDesc (l : List IndexEntry) : Prop :=
  l.Pairwise (fun a b => b.pos < a.pos)

instance : DecidablePred StrictDesc := fun l =>
  inferInstanceAs (Decidable (l.Pairwise _))

/-- Membership of a position in a stream; IndexEntry equality in the engine is
by position. -/
def posMem (l : List IndexEntry) (p : Nat) : Bool :=
  l.any (fun x => x.pos == p)

/-- UnionRevsetIterator::next: peek both streams, emit the side with the
greater position; on equal positions consume both and emit the second. -/
def unionIter : List IndexEntry → List IndexEntry → List IndexEntry
  | [], l2 => l2
  | l1, [] => l1
  | a :: as_, b :: bs =>
    if a.pos < b.pos then b :: unionIter (a :: as_) bs
    else if a.pos = b.pos then b :: unionIter as_ bs
    else a :: unionIter as_ (b :: bs)
termination_by l1 l2 => l1.length + l2.length

/-- IntersectionRevsetIterator::next: advance the side with the greater peek;
on equal positions consume both and emit the second; stop when either side is
exhausted. -/
def interIter : List IndexEntry → List IndexEntry → List IndexEntry
  | [], _ => []
  | _ :: _, [] => []
  | a :: as_, b :: bs =>
    if a.pos < b.pos then interIter (a :: as_) bs
    else if a.pos = b.pos then b :: interIter as_ bs
    else interIter as_ (b :: bs)
termination_by l1 l2 => l1.length + l2.length

/-- DifferenceRevsetIterator::next: advance the subtrahend while its peek is
greater; on equal positions drop both; emit the minuend side when it is
greater; when the subtrahend is exhausted emit the rest of the minuend. -/
def diffIter : List IndexEntry → List IndexEntry → List IndexEntry
  | [], _ => []
  | l1, [] => l1
  | a :: as_, b :: bs =>
    if a.pos < b.pos then diffIter (a :: as_) bs
    else if a.pos = b.pos then diffIter as_ bs
    else a :: diffIter as_ (b :: bs)
termination_by l1 l2 => l1.length + l2.length

/-- One query of the closure built by predicate_fn_from_iter: skip entries with
a greater position, then consume the head and answer true exactly when its
position matches.  The returned list is the state of the peekable cursor after
the query. -/
def leafStep : List IndexEntry → IndexEntry → Bool × List IndexEntry
  | [], _ => (false, [])
  | x :: xs, e =>
    if e.pos < x.pos then leafStep xs e
    else if x.pos = e.pos then (true, xs)
    else (false, x :: xs)

mutual
/-- The internal revset operator nodes.  EagerRevset and RevWalkRevset both
iterate a fixed sequence of entries (a RevWalk is cloneable, so iterating it
repeatedly yields the same stream), so both carry the stream itself. -/
inductive Op where
  | eager : List IndexEntry → Op
  | walk : List IndexEntry → Op
  | filter : Op → Pred → Op
  | union : Op → Op → Op
  | inter : Op → Op → Op
  | diff : Op → Op → Op

/-- The predicate expressions produced by evaluate_predicate: a leaf filter
(build_predicate_fn wraps every leaf in a pure, stateless closure, embedded
here as the resulting Boolean function on entries), a set used as a predicate,
NotInPredicate and UnionPredicate. -/
inductive Pred where
  | pureP : (IndexEntry → Bool) → Pred
  | set : Op → Pred
  | notIn : Pred → Pred
  | unionP : Pred → Pred → Pred
end

mutual
/-- One query of an operator node's to_predicate_fn closure.  The first
component is the answer; the second is the closure state after the query
(the node tree with its leaf cursors advanced).  The Boolean combinators
mirror the short-circuit evaluation of the Rust closures: in
p1(e) || p2(e) the second closure is not invoked when the first answers
true, and in p1(e) && p2(e) it is not invoked when the first answers
false. -/
def opPredStep : Op → IndexEntry → Bool × Op
  | .eager l, e =>
    let r := leafStep l e
    (r.1, .eager r.2)
  | .walk l, e =>
    let r := leafStep l e
    (r.1, .walk r.2)
  | .filter c p, e =>
    let r1 := opPredStep c e
    if r1.1 then
      let r2 := predStep p e
      (r2.1, .filter r1.2 r2.2)
    else
      (false, .filter r1.2 p)
  | .union a b, e =>
    let r1 := opPredStep a e
    if r1.1 then (true, .union r1.2 b)
    else
      let r2 := opPredStep b e
      (r2.1, .union r1.2 r2.2)
  | .inter a b, e =>
    let r1 := opPredStep a e
    if r1.1 then
      let r2 := opPredStep b e
      (r2.1, .inter r1.2 r2.2)
    else
      (false, .inter r1.2 b)
  | .diff a b, e =>
    let r1 := opPredStep a e
    if r1.1 then
      let r2 := opPredStep b e
      (!r2.1, .diff r1.2 r2.2)
    else
      (false, .diff r1.2 b)

/-- One query of a predicate expression's closure. -/
def predStep : Pred → IndexEntry → Bool × Pred
  | .pureP f, e => (f e, .pureP f)
  | .set op, e =>
    let r := opPredStep op e
    (r.1, .set r.2)
  | .notIn p, e =>
    let r := predStep p e
    (!r.1, .notIn r.2)
  | .unionP a b, e =>
    let r1 := predStep a e
    if r1.1 then (true, .unionP r1.2 b)
    else
      let r2 := predStep b e
      (r2.1, .unionP r1.2 r2.2)
end

/-- FilterRevset::iter: drive the candidate stream through the stateful
closure of the inner predicate, keeping the entries it accepts. -/
def filterRun : Pred → List IndexEntry → List IndexEntry
  | _, [] => []
  | p, x :: xs =>
    let r := predStep p x
    if r.1 then x :: filterRun r.2 xs else filterRun r.2 xs

/-- iter() of an operator node. -/
def iterOp : Op → List IndexEntry
  | .eager l => l
  | .walk l => l
  | .filter c p => filterRun p (iterOp c)
  | .union a b => unionIter (iterOp a) (iterOp b)
  | .inter a b => interIter (iterOp a) (iterOp b)
  | .diff a b => diffIter (iterOp a) (iterOp b)

/-- Run an operator's predicate closure over a sequence of queried entries,
collecting the answers. -/
def opPredRun : Op → List IndexEntry → List Bool
  | _, [] => []
  | op, e :: es =>
    let r := opPredStep op e
    r.1 :: opPredRun r.2 es

mutual
/-- The invariant every operator input satisfies: all leaf streams are in
strictly descending position order. -/
def Valid : Op → Prop
  | .eager l => StrictDesc l
  | .walk l => StrictDesc l
  | .filter c p => Valid c ∧ ValidP p
  | .union a b => Valid a ∧ Valid b
  | .inter a b => Valid a ∧ Valid b
  | .diff a b => Valid a ∧ Valid b

def ValidP : Pred → Prop
  | .pureP _ => True
  | .set op => Valid op
  | .notIn p => ValidP p
  | .unionP a b => ValidP a ∧ ValidP b
end

mutual
/-- Every pure leaf predicate depends on its entry only through the position.
This reflects that index entries are handles determined by their position
(IndexEntry equality is by position), so the pure closures built by
build_predicate_fn, which consult the commit at the entry, are functions of
the position. -/
def PosDetO : Op → Prop
  | .eager _ => True
  | .walk _ => True
  | .filter c p => PosDetO c ∧ PosDetP p
  | .union a b => PosDetO a ∧ PosDetO b
  | .inter a b => PosDetO a ∧ PosDetO b
  | .diff a b => PosDetO a ∧ PosDetO b

def PosDetP : Pred → Prop
  | .pureP f => ∀ x y, x.pos = y.pos → f x = f y
  | .set op => PosDetO op
  | .notIn p => PosDetP p
  | .unionP a b => PosDetP a ∧ PosDetP b
end

/-- The denotation of a predicate expression on an entry: membership of the
entry's position for a set, the function itself for a pure leaf, Boolean
combinations otherwise. -/
def predDen : Pred → IndexEntry → Bool
  | .pureP f, e => f e
  | .set op, e => posMem (iterOp op) e.pos
  | .notIn p, e => !predDen p e
  | .unionP a b, e => predDen a e || predDen b e

mutual
/-- The leaf cursor states of an operator predicate closure, the observable
internal cursor of the closure. -/
def leafLists : Op → List (List IndexEntry)
  | .eager l => [l]
  | .walk l => [l]
  | .filter c p => leafLists c ++ leafListsP p
  | .union a b => leafLists a ++ leafLists b
  | .inter a b => leafLists a ++ leafLists b
  | .diff a b => leafLists a ++ leafLists b

def leafListsP : Pred → List (List IndexEntry)
  | .pureP _ => []
  | .set op => leafLists op
  | .notIn p => leafListsP p
  | .unionP a b => leafListsP a ++ leafListsP b
end

/-! ### The stateful predicate closures -/

/-- Entries strictly below a position bound; the possible cursor states of a
leaf closure are exactly the filters of the original stream by such bounds. -/
def below (t : Nat) (x : IndexEntry) : Bool := decide (x.pos < t)

/-- The cursor-state invariant of a leaf closure: either untouched, or the
original stream filtered strictly below a bound that is at least the next
query bound. -/
def LInv (l l' : List IndexEntry) (q : Nat) : Prop :=
  l' = l ∨ ∃ t, q ≤ t ∧ l' = l.filter (below t)

mutual
/-- Relates the current state of an operator predicate closure to the operator
it was created from: same tree shape, with every leaf cursor in a state
reachable by queries above the bound. -/
inductive OInv : Op → Op → Nat → Prop where
  | eager : ∀ {l l' : List IndexEntry} {q : Nat}, LInv l l' q → OInv (.eager l) (.eager l') q
  | walk : ∀ {l l' : List IndexEntry} {q : Nat}, LInv l l' q → OInv (.walk l) (.walk l') q
  | filter : ∀ {c c' : Op} {p p' : Pred} {q : Nat}, OInv c c' q → PInv p p' q →
      OInv (.filter c p) (.filter c' p') q
  | union : ∀ {a a' b b' : Op} {q : Nat}, OInv a a' q → OInv b b' q →
      OInv (.union a b) (.union a' b') q
  | inter : ∀ {a a' b b' : Op} {q : Nat}, OInv a a' q → OInv b b' q →
      OInv (.inter a b) (.inter a' b') q
  | diff : ∀ {a a' b b' : Op} {q : Nat}, OInv a a' q → OInv b b' q →
      OInv (.diff a b) (.diff a' b') q

inductive PInv : Pred → Pred → Nat → Prop where
  | pureP : ∀ {f : IndexEntry → Bool} {q : Nat}, PInv (.pureP f) (.pureP f) q
  | set : ∀ {op op' : Op} {q : Nat}, OInv op op' q → PInv (.set op) (.set op') q
  | notIn : ∀ {p p' : Pred} {q : Nat}, PInv p p' q → PInv (.notIn p) (.notIn p') q
  | unionP : ∀ {a a' b b' : Pred} {q : Nat}, PInv a a' q → PInv b b' q →
      PInv (.unionP a b) (.unionP a' b') q
end

/-- A simple concrete entry used in witnesses: position and commit id i. -/
def ent (i : Nat) : IndexEntry := ⟨i, i, [], 0⟩

/-- Entry i of the five-commit linear chain id_0 to id_4 from the engine
tests: position i, commit id i, single parent at position i-1. -/
def chainEntry (i : Nat) : IndexEntry := ⟨i, i, if i = 0 then [] else [i - 1], 0⟩

/-! ### IdIndex: sorted key-value vector with hex-prefix lookups -/

/-- A key of the IdIndex: the raw bytes of an object id, most significant
byte first. -/
abbrev ObjKey := List Nat

/-- The strict lexicographic order on raw key bytes, the Ord by which
IdIndex::from_vec sorts its entries. -/
def bytesLt : ObjKey → ObjKey → Bool
  | [], [] => false
  | [], _ :: _ => true
  | _ :: _, [] => false
  | a :: as_, b :: bs => a < b || (a == b && bytesLt as_ bs)

/-- Non-strict byte order. -/
def BytesLe (a b : ObjKey) : Prop := bytesLt a b = true ∨ a = b

/-- The hex digits of a byte string: high nibble of each byte first. -/
def toNibbles : ObjKey → List Nat
  | [] => []
  | b :: bs => b / 16 :: b % 16 :: toNibbles bs

/-- Modelled from the spec: backend common_hex_len (backend.rs is not under
src/) counts the shared leading hex digits of two ids, a hex digit being a
nibble. -/
def commonHexLen : ObjKey → ObjKey → Nat
  | a :: as_, b :: bs =>
    if a = b then 2 + commonHexLen as_ bs
    else if a / 16 = b / 16 then 1
    else 0
  | _, _ => 0

/-- Vec partition_point applied to a partitioned vector: the index of the
first element failing the predicate, which is the length of the satisfying
prefix run. -/
def partitionPoint {α : Type} (pred : α → Bool) (l : List α) : Nat :=
  (l.takeWhile pred).length

/-- IdIndex::shortest_unique_prefix_len on the sorted entry vector: look at
the left neighbour of the insertion point and at the first element to the
right whose key differs, and return the maximum of common_hex_len + 1 over
them, or 0 when there is no such neighbour. -/
def shortestUniquePrefixLen {V : Type} (idx : List (ObjKey × V)) (key : ObjKey) : Nat :=
  let pos := partitionPoint (fun kv => bytesLt kv.1 key) idx
  let left := if pos = 0 then none else idx.get? (pos - 1)
  let right := (idx.drop pos).find? (fun kv => kv.1 != key)
  ((left.toList ++ right.toList).map (fun kv => commonHexLen key kv.1 + 1)).foldr max 0

/-- Modelled from the spec: a HexPrefix (index.rs is not under src/) is a
sequence of hex digits with an odd-length flag implied by its parity; it
exposes min_prefix_bytes() and matches(key). -/
structure HexPfx where
  digits : List Nat

/-- Modelled from the spec: min_prefix_bytes() packs the digits into whole
bytes, padding an odd trailing digit with a zero low nibble. -/
def minPfxBytes : List Nat → List Nat
  | [] => []
  | [a] => [16 * a]
  | a :: b :: rest => (16 * a + b) :: minPfxBytes rest

/-- Modelled from the spec: matches(key) holds when the digits are a leading
run of the hex digits of the key. -/
def hpMatches (p : HexPfx) (k : ObjKey) : Bool := p.digits.isPrefixOf (toNibbles k)

/-- IdIndex::resolve_prefix_range: binary-search the first key at or above
min_prefix_bytes, then take while the prefix matches. -/
def resolvePfxRange {V : Type} (idx : List (ObjKey × V)) (p : HexPfx) : List (ObjKey × V) :=
  (idx.drop (partitionPoint (fun kv => bytesLt kv.1 (minPfxBytes p.digits)) idx)).takeWhile
    (fun kv => hpMatches p kv.1)

inductive PfxResolution (α : Type) where
  | noMatch
  | singleMatch (v : α)
  | ambiguousMatch
deriving DecidableEq

/-- IdIndex::resolve_prefix_with: NoMatch when the range is empty,
SingleMatch of the mapped values when every key in the range equals the first
key, AmbiguousMatch otherwise. -/
def resolvePfxWith {V U : Type} (idx : List (ObjKey × V)) (p : HexPfx) (f : V → U) :
    PfxResolution (List U) :=
  match resolvePfxRange idx p with
  | [] => .noMatch
  | (k0, v0) :: rest =>
    if ((k0, v0) :: rest).all (fun kv => kv.1 == k0) then
      .singleMatch (((k0, v0) :: rest).map (fun kv => f kv.2))
    else
      .ambiguousMatch

/-- The IdIndex invariant established by from_vec: entries sorted by key
bytes, duplicate keys allowed. -/
def KeysSorted {V : Type} (idx : List (ObjKey × V)) : Prop :=
  idx.Pairwise (fun a b => bytesLt a.1 b.1 = true ∨ a.1 = b.1)

instance {V : Type} (idx : List (ObjKey × V)) : Decidable (KeysSorted idx) :=
  inferInstanceAs (Decidable (idx.Pairwise _))

/-- The IdIndex of the resolve_prefix test: keys 0000, 0099, 0099, 0aaa,
0aab with values 0 to 4, sorted by key. -/
def c8idx : List (ObjKey × Nat) :=
  [([0x00, 0x00], 0), ([0x00, 0x99], 1), ([0x00, 0x99], 2), ([0x0a, 0xaa], 3), ([0x0a, 0xab], 4)]

/-! ### The evaluator: graph model, walk primitives and evaluate -/

/-- Modelled from the spec: the composite index snapshot, abstracted as a
commit graph over positions 0 to n-1 with parent positions and committer
timestamps (default_index_store.rs and the store are not under src/).
Commit ids are identified with index positions, so entry_by_id is the
inverse of commit_id. -/
structure Graph where
  n : Nat
  par : Nat → List Nat
  ts : Nat → Int

/-- The index entry at a position: position, commit id, parent positions and
the committer timestamp the store would return for its commit. -/
def mkEntry (g : Graph) (p : Nat) : IndexEntry := ⟨p, p, g.par p, g.ts p⟩

/-- Modelled from the spec: the positions that are ancestors-or-self of the
given head positions, collected in descending position order by a downward
sweep (a parent position is always smaller than its child). -/
def ancestorPositions (g : Graph) (heads : List Nat) : List Nat :=
  (List.range g.n).reverse.foldl
    (fun acc p =>
      if heads.contains p || acc.any (fun q => (g.par q).contains p) then acc ++ [p] else acc)
    []

/-- Modelled from the spec: CompositeIndex::walk_revs yields the entries that
are ancestors-or-self of some head and not ancestors-or-self of any root, in
descending position order (default_index_store.rs is not under src/). -/
def walkRevs (g : Graph) (headIds rootIds : List Nat) : List IndexEntry :=
  ((ancestorPositions g headIds).filter
    (fun p => !(ancestorPositions g rootIds).contains p)).map (mkEntry g)

/-- Modelled from the spec: RevWalk::take_until_roots stops the descending
walk once the positions have descended past every given root position. -/
def takeUntilRoots (roots : List Nat) (walk : List IndexEntry) : List IndexEntry :=
  walk.takeWhile (fun e => roots.any (fun r => r ≤ e.pos))

/-- A Range of u64 generation bounds (Rust Range start..end; the upper bound
is exclusive and is called stop here). -/
structure Range64 where
  start : Nat
  stop : Nat
deriving DecidableEq

/-- Modelled from the spec: GENERATION_RANGE_FULL denotes the full range
0..u64::MAX (revset.rs is not under src/). -/
def GENERATION_RANGE_FULL : Range64 := ⟨0, 2 ^ 64 - 1⟩

/-- Modelled from the spec: RevWalk::filter_by_generation retains the entries
of the walk whose generation distance from the heads (each head at
generation 0) lies in the range. -/
def filterByGeneration (heads : List Nat) (walk : List IndexEntry) (r : Range64) :
    List IndexEntry :=
  let step := fun (acc : List (IndexEntry × Nat)) (e : IndexEntry) =>
    let ds := acc.filterMap
      (fun cd => if cd.1.parents.contains e.pos then some (cd.2 + 1) else none)
    let ds := if heads.contains e.pos then 0 :: ds else ds
    let d := ds.foldr min (ds.headD 0)
    acc ++ [(e, d)]
  ((walk.foldl step []).filter (fun ed => r.start ≤ ed.2 && ed.2 < r.stop)).map
    (fun ed => ed.1)

/-- Modelled from the spec: RevWalk::descendants_filtered_by_generation
enumerates, in ascending position order, the entries of the walk that
descend from the given root positions with generation-from-roots in the
range. -/
def descendantsFilteredByGeneration (roots : List Nat) (walk : List IndexEntry)
    (r : Range64) : List IndexEntry :=
  let step := fun (acc : List (IndexEntry × Nat)) (e : IndexEntry) =>
    let ds := acc.filterMap
      (fun cd => if e.parents.contains cd.1.pos then some (cd.2 + 1) else none)
    let ds := if roots.contains e.pos then 0 :: ds else ds
    match ds with
    | [] => acc
    | d :: rest => acc ++ [(e, rest.foldr min d)]
  ((walk.reverse.foldl step []).filter (fun ed => r.start ≤ ed.2 && ed.2 < r.stop)).map
    (fun ed => ed.1)

/-- Modelled from the spec: CompositeIndex::heads returns the subset of the
input ids that are not ancestors of any other input id. -/
def indexHeads (g : Graph) (ids : List Nat) : List Nat :=
  ids.filter (fun p => !(ids.any (fun q => q != p && (ancestorPositions g [q]).contains p)))

/-- Insertion into a descending-by-position list; used to model
sort_unstable_by_key(Reverse(position)). -/
def insertPosDesc (x : IndexEntry) : List IndexEntry → List IndexEntry
  | [] => [x]
  | y :: ys => if x.pos ≤ y.pos then y :: insertPosDesc x ys else x :: y :: ys

def sortByPosDesc (l : List IndexEntry) : List IndexEntry := l.foldr insertPosDesc []

/-- Vec::dedup: remove consecutive duplicates. -/
def dedupAdj : List IndexEntry → List IndexEntry
  | [] => []
  | [x] => [x]
  | x :: y :: rest => if x = y then dedupAdj (x :: rest) else x :: dedupAdj (y :: rest)
termination_by l => l.length

/-- EvaluationContext::revset_for_commit_ids: look up each id, sort by
descending position, dedup, wrap as Eager. -/
def revsetForCommitIds (g : Graph) (ids : List Nat) : Op :=
  .eager (dedupAdj (sortByPosDesc (ids.map (mkEntry g))))

/-- EvaluationContext::collect_dag_range: walk the ancestors of the head set
bounded by the root positions, then sweep the materialised walk in ascending
position, keeping an entry (and marking its position reachable) when it is a
root or has a reachable parent; the output is reversed back to descending
order and returned with the reachable-position set. -/
def collectDagRange (g : Graph) (rootSet headSet : List IndexEntry) :
    List IndexEntry × List Nat :=
  let rootPositions := rootSet.map (fun e => e.pos)
  let walk := takeUntilRoots rootPositions (walkRevs g (headSet.map (fun e => e.cid)) [])
  let step := fun (st : List IndexEntry × List Nat) (c : IndexEntry) =>
    if rootPositions.contains c.pos || c.parents.any (fun pp => st.2.contains pp) then
      (st.1 ++ [c], c.pos :: st.2)
    else st
  let res := walk.reverse.foldl step ([], [])
  (res.1.reverse, res.2)

/-- The Roots branch of EvaluationContext::evaluate: materialise the
candidates, compute the reachable positions of collect_dag_range(C, C), and
keep the candidates none of whose parent positions is reachable. -/
def rootsRevset (g : Graph) (candidateSet : List IndexEntry) : Op :=
  let filled := (collectDagRange g candidateSet candidateSet).2
  .eager (candidateSet.filter (fun c => !c.parents.any (fun pp => filled.contains pp)))

/-- EvaluationContext::walk_children: ancestors of the heads bounded by the
root positions, filtered by a pure predicate keeping entries with a parent
among the roots. -/
def walkChildren (g : Graph) (rootSet headSet : List IndexEntry) : Op :=
  let rootPositions := rootSet.map (fun e => e.pos)
  .filter (.walk (takeUntilRoots rootPositions (walkRevs g (headSet.map (fun e => e.cid)) [])))
    (.pureP (fun e => e.parents.any (fun pp => rootPositions.contains pp)))

/-- The min-heap item order of take_latest_revset: committer timestamp, ties
broken by index position (IndexEntryByPosition, which is not under src/, is
modelled from the spec as ordering by position). -/
def itemLtB (a b : IndexEntry) : Bool := a.ts < b.ts || (a.ts == b.ts && a.pos < b.pos)

/-- The minimum of a nonempty heap content by the item order. -/
def heapMin : List IndexEntry → Option IndexEntry
  | [] => none
  | x :: xs => some (xs.foldl (fun m y => if itemLtB y m then y else m) x)

/-- One loop iteration of take_latest_revset: peek the minimum item and
replace it when the new item is strictly greater. -/
def heapStep (heap : List IndexEntry) (x : IndexEntry) : List IndexEntry :=
  match heapMin heap with
  | none => heap
  | some m => if itemLtB m x then x :: heap.erase m else heap

/-- EvaluationContext::take_latest_revset: empty for count 0; otherwise seed
a min-heap with the first count candidates, replace the minimum whenever a
later candidate is greater, and finally sort the heap contents by descending
position. -/
def takeLatestRevset (candidates : List IndexEntry) (count : Nat) : List IndexEntry :=
  if count = 0 then []
  else sortByPosDesc ((candidates.drop count).foldl heapStep (candidates.take count))

inductive RevsetEvaluationError where
  | other (msg : String)
deriving DecidableEq

/-- to_u32_generation_range: the lower bound must fit in u32 (otherwise the
GenerationLowerBoundOverflow error, reported through
RevsetEvaluationError::Other with the offending value in the message); the
upper bound saturates to u32::MAX. -/
def toU32GenerationRange (r : Range64) : Except RevsetEvaluationError Range64 :=
  if r.start < 2 ^ 32 then .ok ⟨r.start, min r.stop (2 ^ 32 - 1)⟩
  else .error (.other ("Lower bound of generation (" ++ toString r.start ++ ") is too large"))

mutual
/-- The resolved expression tree (revset.rs is not under src/; the variants
and payloads follow the spec data model).  Leaf filter predicates are
represented by the pure entry predicate that build_predicate_fn constructs
for them, since the store and matcher they consult are external. -/
inductive ResolvedExpression where
  | commits (ids : List Nat)
  | ancestors (heads : ResolvedExpression) (generation : Range64)
  | range (roots heads : ResolvedExpression) (generation : Range64)
  | dagRange (roots heads : ResolvedExpression) (generationFromRoots : Range64)
  | heads (candidates : ResolvedExpression)
  | roots (candidates : ResolvedExpression)
  | latest (candidates : ResolvedExpression) (count : Nat)
  | union (e1 e2 : ResolvedExpression)
  | intersection (e1 e2 : ResolvedExpression)
  | difference (e1 e2 : ResolvedExpression)
  | filterWithin (candidates : ResolvedExpression) (predicate : ResolvedPredicateExpression)

inductive ResolvedPredicateExpression where
  | filter (f : IndexEntry → Bool)
  | set (e : ResolvedExpression)
  | notIn (p : ResolvedPredicateExpression)
  | union (p1 p2 : ResolvedPredicateExpression)
end

mutual
/-- EvaluationContext::evaluate: fold the resolved expression into an
operator tree, or fail with the generation-overflow error. -/
def evaluate (g : Graph) : ResolvedExpression → Except RevsetEvaluationError Op
  | .commits ids => .ok (revsetForCommitIds g ids)
  | .ancestors heads gen => do
    let headSet ← evaluate g heads
    let walk := walkRevs g ((iterOp headSet).map (fun e => e.cid)) []
    if gen = GENERATION_RANGE_FULL then
      pure (.walk walk)
    else do
      let gr ← toU32GenerationRange gen
      pure (.walk (filterByGeneration ((iterOp headSet).map (fun e => e.cid)) walk gr))
  | .range roots heads gen => do
    let rootSet ← evaluate g roots
    let rootIds := (iterOp rootSet).map (fun e => e.cid)
    let headSet ← evaluate g heads
    let headIds := (iterOp headSet).map (fun e => e.cid)
    let walk := walkRevs g headIds rootIds
    if gen = GENERATION_RANGE_FULL then
      pure (.walk walk)
    else do
      let gr ← toU32GenerationRange gen
      pure (.walk (filterByGeneration headIds walk gr))
  | .dagRange roots heads genFromRoots => do
    let rootSet ← evaluate g roots
    let headSet ← evaluate g heads
    if genFromRoots = ⟨1, 2⟩ then
      pure (walkChildren g (iterOp rootSet) (iterOp headSet))
    else if genFromRoots = GENERATION_RANGE_FULL then
      pure (.eager (collectDagRange g (iterOp rootSet) (iterOp headSet)).1)
    else do
      let rootPositions := (iterOp rootSet).map (fun e => e.pos)
      let gr ← toU32GenerationRange genFromRoots
      let walk := descendantsFilteredByGeneration rootPositions
        (walkRevs g ((iterOp headSet).map (fun e => e.cid)) []) gr
      pure (.eager walk.reverse)
  | .heads candidates => do
    let candidateSet ← evaluate g candidates
    pure (revsetForCommitIds g (indexHeads g ((iterOp candidateSet).map (fun e => e.cid))))
  | .roots candidates => do
    let candidateSet ← evaluate g candidates
    pure (rootsRevset g (iterOp candidateSet))
  | .latest candidates count => do
    let candidateSet ← evaluate g candidates
    pure (.eager (takeLatestRevset (iterOp candidateSet) count))
  | .union e1 e2 => do
    let s1 ← evaluate g e1
    let s2 ← evaluate g e2
    pure (.union s1 s2)
  | .intersection e1 e2 => do
    let s1 ← evaluate g e1
    let s2 ← evaluate g e2
    pure (.inter s1 s2)
  | .difference e1 e2 => do
    let s1 ← evaluate g e1
    let s2 ← evaluate g e2
    pure (.diff s1 s2)
  | .filterWithin candidates predicate => do
    let c ← evaluate g candidates
    let p ← evaluatePredicate g predicate
    pure (.filter c p)

/-- EvaluationContext::evaluate_predicate. -/
def evaluatePredicate (g : Graph) :
    ResolvedPredicateExpression → Except RevsetEvaluationError Pred
  | .filter f => .ok (.pureP f)
  | .set e => do
    let op ← evaluate g e
    pure (.set op)
  | .notIn p => do
    let inner ← evaluatePredicate g p
    pure (.notIn inner)
  | .union p1 p2 => do
    let s1 ← evaluatePredicate g p1
    let s2 ← evaluatePredicate g p2
    pure (.unionP s1 s2)
end

/-! ### take_latest_revset (C4) -/

/-- The min-heap item order as a proposition: lexicographic on committer
timestamp, then index position. -/
def ItemLt (a b : IndexEntry) : Prop := a.ts < b.ts ∨ (a.ts = b.ts ∧ a.pos < b.pos)

/-- Pairwise-distinct positions, as produced by a strictly descending
candidate stream. -/
def PosNodup (l : List IndexEntry) : Prop := l.Pairwise (fun a b => a.pos ≠ b.pos)

/-! ### Basic facts about streams and the merge iterators -/

theorem strictDesc_cons {x : IndexEntry} {l : List IndexEntry} :
    StrictDesc (x :: l) ↔ (∀ y ∈ l, y.pos < x.pos) ∧ StrictDesc l :=
  List.pairwise_cons

theorem strictDesc_nil : StrictDesc [] := List.Pairwise.nil

theorem posMem_cons (x : IndexEntry) (l : List IndexEntry) (p : Nat) :
    posMem (x :: l) p = ((x.pos == p) || posMem l p) := by
  simp [posMem]

theorem posMem_eq_false_of_forall_lt {l : List IndexEntry} {p : Nat}
    (h : ∀ y ∈ l, y.pos < p) : posMem l p = false := by
  simp only [posMem, List.any_eq_false, beq_iff_eq]
  intro y hy
  exact Nat.ne_of_lt (h y hy)

theorem posMem_eq_false_of_forall_gt {l : List IndexEntry} {p : Nat}
    (h : ∀ y ∈ l, p < y.pos) : posMem l p = false := by
  simp only [posMem, List.any_eq_false, beq_iff_eq]
  intro y hy
  exact Nat.ne_of_gt (h y hy)

theorem mem_unionIter : ∀ (a b : List IndexEntry) (x : IndexEntry),
    x ∈ unionIter a b → x ∈ a ∨ x ∈ b
  | [], l2, x, hx => Or.inr (by simpa [unionIter] using hx)
  | _ :: _, [], x, hx => Or.inl (by simpa [unionIter] using hx)
  | a :: as_, b :: bs, x, hx => by
    simp only [unionIter] at hx
    split at hx
    · rcases List.mem_cons.mp hx with h | h
      · exact Or.inr (List.mem_cons.mpr (Or.inl h))
      · rcases mem_unionIter (a :: as_) bs x h with h1 | h2
        · exact Or.inl h1
        · exact Or.inr (List.mem_cons_of_mem _ h2)
    · split at hx
      · rcases List.mem_cons.mp hx with h | h
        · exact Or.inr (List.mem_cons.mpr (Or.inl h))
        · rcases mem_unionIter as_ bs x h with h1 | h2
          · exact Or.inl (List.mem_cons_of_mem _ h1)
          · exact Or.inr (List.mem_cons_of_mem _ h2)
      · rcases List.mem_cons.mp hx with h | h
        · exact Or.inl (List.mem_cons.mpr (Or.inl h))
        · rcases mem_unionIter as_ (b :: bs) x h with h1 | h2
          · exact Or.inl (List.mem_cons_of_mem _ h1)
          · exact Or.inr h2
termination_by a b => a.length + b.length

theorem mem_interIter : ∀ (a b : List IndexEntry) (x : IndexEntry),
    x ∈ interIter a b → x ∈ b
  | [], _, x, hx => by simp [interIter] at hx
  | _ :: _, [], x, hx => by simp [interIter] at hx
  | a :: as_, b :: bs, x, hx => by
    simp only [interIter] at hx
    split at hx
    · exact List.mem_cons_of_mem _ (mem_interIter (a :: as_) bs x hx)
    · split at hx
      · rcases List.mem_cons.mp hx with h | h
        · exact List.mem_cons.mpr (Or.inl h)
        · exact List.mem_cons_of_mem _ (mem_interIter as_ bs x h)
      · exact mem_interIter as_ (b :: bs) x hx
termination_by a b => a.length + b.length

theorem mem_diffIter : ∀ (a b : List IndexEntry) (x : IndexEntry),
    x ∈ diffIter a b → x ∈ a
  | [], _, x, hx => by simp [diffIter] at hx
  | _ :: _, [], x, hx => by simpa [diffIter] using hx
  | a :: as_, b :: bs, x, hx => by
    simp only [diffIter] at hx
    split at hx
    · exact mem_diffIter (a :: as_) bs x hx
    · split at hx
      · exact List.mem_cons_of_mem _ (mem_diffIter as_ bs x hx)
      · rcases List.mem_cons.mp hx with h | h
        · exact List.mem_cons.mpr (Or.inl h)
        · exact List.mem_cons_of_mem _ (mem_diffIter as_ (b :: bs) x h)
termination_by a b => a.length + b.length

theorem unionIter_sorted : ∀ {a b : List IndexEntry},
    StrictDesc a → StrictDesc b → StrictDesc (unionIter a b)
  | [], l2, _, h2 => by simpa [unionIter] using h2
  | _ :: _, [], h1, _ => by simpa [unionIter] using h1
  | a :: as_, b :: bs, h1, h2 => by
    obtain ⟨ha, has⟩ := strictDesc_cons.mp h1
    obtain ⟨hb, hbs⟩ := strictDesc_cons.mp h2
    simp only [unionIter]
    split
    · rename_i hlt
      refine strictDesc_cons.mpr ⟨?_, unionIter_sorted h1 hbs⟩
      intro z hz
      rcases mem_unionIter (a :: as_) bs z hz with h | h
      · rcases List.mem_cons.mp h with h | h
        · exact h ▸ hlt
        · exact Nat.lt_trans (ha z h) hlt
      · exact hb z h
    · split
      · rename_i hnlt heq
        refine strictDesc_cons.mpr ⟨?_, unionIter_sorted has hbs⟩
        intro z hz
        rcases mem_unionIter as_ bs z hz with h | h
        · exact heq ▸ ha z h
        · exact hb z h
      · rename_i hnlt hne
        have hgt : b.pos < a.pos := by omega
        refine strictDesc_cons.mpr ⟨?_, unionIter_sorted has h2⟩
        intro z hz
        rcases mem_unionIter as_ (b :: bs) z hz with h | h
        · exact ha z h
        · rcases List.mem_cons.mp h with h | h
          · exact h ▸ hgt
          · exact Nat.lt_trans (hb z h) hgt
termination_by a b => a.length + b.length

theorem interIter_sorted : ∀ {a b : List IndexEntry},
    StrictDesc a → StrictDesc b → StrictDesc (interIter a b)
  | [], _, _, _ => by simp [interIter, strictDesc_nil]
  | _ :: _, [], _, _ => by simp [interIter, strictDesc_nil]
  | a :: as_, b :: bs, h1, h2 => by
    obtain ⟨ha, has⟩ := strictDesc_cons.mp h1
    obtain ⟨hb, hbs⟩ := strictDesc_cons.mp h2
    simp only [interIter]
    split
    · exact interIter_sorted h1 hbs
    · split
      · rename_i hnlt heq
        refine strictDesc_cons.mpr ⟨?_, interIter_sorted has hbs⟩
        intro z hz
        exact hb z (mem_interIter as_ bs z hz)
      · exact interIter_sorted has h2
termination_by a b => a.length + b.length

theorem diffIter_sorted : ∀ {a b : List IndexEntry},
    StrictDesc a → StrictDesc b → StrictDesc (diffIter a b)
  | [], _, _, _ => by simp [diffIter, strictDesc_nil]
  | _ :: _, [], h1, _ => by simpa [diffIter] using h1
  | a :: as_, b :: bs, h1, h2 => by
    obtain ⟨ha, has⟩ := strictDesc_cons.mp h1
    obtain ⟨hb, hbs⟩ := strictDesc_cons.mp h2
    simp only [diffIter]
    split
    · exact diffIter_sorted h1 hbs
    · split
      · exact diffIter_sorted has hbs
      · refine strictDesc_cons.mpr ⟨?_, diffIter_sorted has h2⟩
        intro z hz
        exact ha z (mem_diffIter as_ (b :: bs) z hz)
termination_by a b => a.length + b.length

theorem filterRun_sublist : ∀ (p : Pred) (l : List IndexEntry),
    (filterRun p l).Sublist l := by
  intro p l
  induction l generalizing p with
  | nil => simp [filterRun]
  | cons x xs ih =>
    simp only [filterRun]
    split
    · exact (ih _).cons₂ x
    · exact (ih _).cons x

theorem posMem_unionIter : ∀ (a b : List IndexEntry) (p : Nat),
    posMem (unionIter a b) p = (posMem a p || posMem b p)
  | [], l2, p => by simp [unionIter, posMem]
  | _ :: _, [], p => by simp [unionIter, posMem]
  | a :: as_, b :: bs, p => by
    simp only [unionIter]
    split
    · rw [posMem_cons, posMem_unionIter (a :: as_) bs p]
      simp only [posMem_cons]
      cases (b.pos == p) <;> cases (a.pos == p) <;> cases posMem as_ p <;>
        cases posMem bs p <;> rfl
    · split
      · rename_i hnlt heq
        rw [posMem_cons, posMem_unionIter as_ bs p]
        simp only [posMem_cons]
        rw [heq]
        cases (b.pos == p) <;> cases posMem as_ p <;> cases posMem bs p <;> rfl
      · rw [posMem_cons, posMem_unionIter as_ (b :: bs) p]
        simp only [posMem_cons]
        cases (a.pos == p) <;> cases (b.pos == p) <;> cases posMem as_ p <;>
          cases posMem bs p <;> rfl
termination_by a b => a.length + b.length

theorem posMem_interIter : ∀ {a b : List IndexEntry}, StrictDesc a → StrictDesc b →
    ∀ p, posMem (interIter a b) p = (posMem a p && posMem b p)
  | [], _, _, _, p => by simp [interIter, posMem]
  | _ :: _, [], _, _, p => by simp [interIter, posMem]
  | a :: as_, b :: bs, h1, h2, p => by
    obtain ⟨ha, has⟩ := strictDesc_cons.mp h1
    obtain ⟨hb, hbs⟩ := strictDesc_cons.mp h2
    simp only [interIter]
    split
    · rename_i hlt
      rw [posMem_interIter h1 hbs p]
      by_cases hbp : b.pos = p
      · have hall : posMem (a :: as_) p = false := by
          refine posMem_eq_false_of_forall_lt ?_
          intro y hy
          rcases List.mem_cons.mp hy with h | h
          · subst h; omega
          · have := ha y h; omega
        rw [hall]; simp
      · have hbf : (b.pos == p) = false := by simpa using hbp
        rw [posMem_cons b bs p, hbf]; simp
    · split
      · rename_i hnlt heq
        rw [posMem_cons b (interIter as_ bs) p, posMem_interIter has hbs p,
          posMem_cons a as_ p, posMem_cons b bs p, heq]
        cases (b.pos == p) <;> cases posMem as_ p <;> cases posMem bs p <;> rfl
      · rename_i hnlt hne
        have hgt : b.pos < a.pos := by omega
        rw [posMem_interIter has h2 p]
        by_cases hap : a.pos = p
        · have hall : posMem (b :: bs) p = false := by
            refine posMem_eq_false_of_forall_lt ?_
            intro y hy
            rcases List.mem_cons.mp hy with h | h
            · subst h; omega
            · have := hb y h; omega
          rw [hall]; simp
        · have haf : (a.pos == p) = false := by simpa using hap
          rw [posMem_cons a as_ p, haf]; simp
termination_by a b => a.length + b.length

/-- Shared proof behind the first part of C5: for strictly descending inputs,
the difference iterator yields exactly the entries of the minuend whose
position does not occur in the subtrahend, in the same order. -/
theorem diffIter_eq_filter : ∀ {a b : List IndexEntry}, StrictDesc a → StrictDesc b →
    diffIter a b = a.filter (fun x => !posMem b x.pos)
  | [], _, _, _ => by simp [diffIter]
  | a :: as_, [], _, _ => by simp [diffIter, posMem]
  | a :: as_, b :: bs, h1, h2 => by
    obtain ⟨ha, has⟩ := strictDesc_cons.mp h1
    obtain ⟨hb, hbs⟩ := strictDesc_cons.mp h2
    simp only [diffIter]
    split
    · rename_i hlt
      rw [diffIter_eq_filter h1 hbs]
      refine List.filter_congr ?_
      intro x hx
      have hxlt : x.pos < b.pos := by
        rcases List.mem_cons.mp hx with h | h
        · subst h; omega
        · have := ha x h; omega
      rw [posMem_cons b bs x.pos]
      have hbf : (b.pos == x.pos) = false := by simp; omega
      rw [hbf]; simp
    · split
      · rename_i hnlt heq
        rw [diffIter_eq_filter has hbs, List.filter_cons]
        have hmem : posMem (b :: bs) a.pos = true := by
          rw [posMem_cons b bs a.pos]; simp [heq]
        rw [hmem, if_neg (by simp)]
        refine List.filter_congr ?_
        intro x hx
        have hxlt : x.pos < b.pos := by have := ha x hx; omega
        rw [posMem_cons b bs x.pos]
        have hbf : (b.pos == x.pos) = false := by simp; omega
        rw [hbf]; simp
      · rename_i hnlt hne
        have hgt : b.pos < a.pos := by omega
        rw [diffIter_eq_filter has h2, List.filter_cons]
        have hmem : posMem (b :: bs) a.pos = false := by
          refine posMem_eq_false_of_forall_lt ?_
          intro y hy
          rcases List.mem_cons.mp hy with h | h
          · subst h; omega
          · have := hb y h; omega
        simp [hmem]
termination_by a b => a.length + b.length

theorem posMem_diffIter {a b : List IndexEntry} (h1 : StrictDesc a) (h2 : StrictDesc b)
    (p : Nat) : posMem (diffIter a b) p = (posMem a p && !posMem b p) := by
  rw [diffIter_eq_filter h1 h2]
  induction a with
  | nil => simp [posMem]
  | cons x xs ih =>
    have hxs := (strictDesc_cons.mp h1).2
    rw [List.filter_cons]
    cases hm : posMem b x.pos
    · rw [if_pos (by simp [hm])]
      rw [posMem_cons, posMem_cons, ih hxs]
      by_cases hxp : x.pos = p
      · rw [← hxp, hm]; simp
      · have hbeq : (x.pos == p) = false := by simpa using hxp
        rw [hbeq]; simp
    · rw [if_neg (by simp [hm])]
      rw [ih hxs, posMem_cons]
      by_cases hxp : x.pos = p
      · rw [← hxp, hm]; simp
      · have hbeq : (x.pos == p) = false := by simpa using hxp
        rw [hbeq]; simp

theorem iterOp_sorted : ∀ (op : Op), Valid op → StrictDesc (iterOp op)
  | .eager _, h => h
  | .walk _, h => h
  | .filter c p, h => by
    simp only [Valid] at h
    exact List.Pairwise.sublist (filterRun_sublist p (iterOp c)) (iterOp_sorted c h.1)
  | .union a b, h => by
    simp only [Valid] at h
    exact unionIter_sorted (iterOp_sorted a h.1) (iterOp_sorted b h.2)
  | .inter a b, h => by
    simp only [Valid] at h
    exact interIter_sorted (iterOp_sorted a h.1) (iterOp_sorted b h.2)
  | .diff a b, h => by
    simp only [Valid] at h
    exact diffIter_sorted (iterOp_sorted a h.1) (iterOp_sorted b h.2)

theorem leafStep_eq {l : List IndexEntry} (e : IndexEntry) (hs : StrictDesc l) :
    leafStep l e = (posMem l e.pos, l.filter (below e.pos)) := by
  induction l with
  | nil => simp [leafStep, posMem]
  | cons x xs ih =>
    obtain ⟨hx, hxs⟩ := strictDesc_cons.mp hs
    simp only [leafStep]
    split
    · rename_i hlt
      rw [ih hxs, posMem_cons, List.filter_cons]
      have h1 : (x.pos == e.pos) = false := by simp; omega
      have h2 : below e.pos x = false := by simp [below]; omega
      rw [h1, h2]
      simp
    · split
      · rename_i hnlt hxe
        rw [posMem_cons, List.filter_cons]
        have h1 : (x.pos == e.pos) = true := by simpa using hxe
        have h2 : below e.pos x = false := by simp [below]; omega
        rw [h1, h2]
        have h3 : xs.filter (below e.pos) = xs := by
          refine List.filter_eq_self.mpr ?_
          intro y hy
          have := hx y hy
          simp [below]; omega
        rw [h3]
        simp
      · rename_i hnlt hxe
        have hgt : x.pos < e.pos := by omega
        rw [posMem_cons]
        have h1 : (x.pos == e.pos) = false := by simp; omega
        have h2 : posMem xs e.pos = false := by
          refine posMem_eq_false_of_forall_lt ?_
          intro y hy
          have := hx y hy; omega
        have h3 : (x :: xs).filter (below e.pos) = x :: xs := by
          refine List.filter_eq_self.mpr ?_
          intro y hy
          rcases List.mem_cons.mp hy with h | h
          · subst h; simp [below]; omega
          · have := hx y h; simp [below]; omega
        rw [h1, h2, h3]
        simp

/-- Shared proof behind the amended C9: a leaf closure whose cursor has
advanced strictly below some bound answers false, and does not move, on any
query at or above that bound. -/
theorem leafStep_out_of_order {s : List IndexEntry} {p : Nat} (e : IndexEntry)
    (hstate : ∀ x ∈ s, x.pos < p) (hq : p ≤ e.pos) : leafStep s e = (false, s) := by
  cases s with
  | nil => rfl
  | cons x xs =>
    have hx := hstate x (List.mem_cons_self x xs)
    simp only [leafStep]
    rw [if_neg (by omega), if_neg (by omega)]

theorem LInv_refl (l : List IndexEntry) (q : Nat) : LInv l l q := Or.inl rfl

theorem LInv_mono {l l' : List IndexEntry} {q q2 : Nat} (h : LInv l l' q) (hle : q2 ≤ q) :
    LInv l l' q2 := by
  rcases h with h | ⟨t, ht, h⟩
  · exact Or.inl h
  · exact Or.inr ⟨t, le_trans hle ht, h⟩

mutual
theorem OInv_refl : ∀ (op : Op) (q : Nat), OInv op op q
  | .eager l, q => .eager (LInv_refl l q)
  | .walk l, q => .walk (LInv_refl l q)
  | .filter c p, q => .filter (OInv_refl c q) (PInv_refl p q)
  | .union a b, q => .union (OInv_refl a q) (OInv_refl b q)
  | .inter a b, q => .inter (OInv_refl a q) (OInv_refl b q)
  | .diff a b, q => .diff (OInv_refl a q) (OInv_refl b q)

theorem PInv_refl : ∀ (p : Pred) (q : Nat), PInv p p q
  | .pureP _, _ => .pureP
  | .set op, q => .set (OInv_refl op q)
  | .notIn p, q => .notIn (PInv_refl p q)
  | .unionP a b, q => .unionP (PInv_refl a q) (PInv_refl b q)
end

mutual
theorem OInv_mono : ∀ {op op' : Op} {q q2 : Nat}, OInv op op' q → q2 ≤ q → OInv op op' q2
  | _, _, _, _, .eager h, hle => .eager (LInv_mono h hle)
  | _, _, _, _, .walk h, hle => .walk (LInv_mono h hle)
  | _, _, _, _, .filter hc hp, hle => .filter (OInv_mono hc hle) (PInv_mono hp hle)
  | _, _, _, _, .union ha hb, hle => .union (OInv_mono ha hle) (OInv_mono hb hle)
  | _, _, _, _, .inter ha hb, hle => .inter (OInv_mono ha hle) (OInv_mono hb hle)
  | _, _, _, _, .diff ha hb, hle => .diff (OInv_mono ha hle) (OInv_mono hb hle)

theorem PInv_mono : ∀ {p p' : Pred} {q q2 : Nat}, PInv p p' q → q2 ≤ q → PInv p p' q2
  | _, _, _, _, .pureP, _ => .pureP
  | _, _, _, _, .set h, hle => .set (OInv_mono h hle)
  | _, _, _, _, .notIn h, hle => .notIn (PInv_mono h hle)
  | _, _, _, _, .unionP ha hb, hle => .unionP (PInv_mono ha hle) (PInv_mono hb hle)
end

theorem posMem_filter_below {l : List IndexEntry} {t p : Nat} (h : p < t) :
    posMem (l.filter (below t)) p = posMem l p := by
  induction l with
  | nil => simp
  | cons x xs ih =>
    rw [List.filter_cons, posMem_cons]
    by_cases hx : x.pos < t
    · rw [if_pos (by simp [below]; omega), posMem_cons, ih]
    · have hxf : (x.pos == p) = false := by simp; omega
      rw [if_neg (by simp [below]; omega), ih, hxf]
      simp

/-- One in-order query of a leaf cursor in a reachable state answers
membership in the original stream and leaves the cursor filtered strictly
below the query. -/
theorem leafStep_inv {l l' : List IndexEntry} {q : Nat} (e : IndexEntry)
    (hs : StrictDesc l) (hinv : LInv l l' q) (hlt : e.pos < q) :
    leafStep l' e = (posMem l e.pos, l.filter (below e.pos)) := by
  rcases hinv with h | ⟨t, ht, h⟩
  · subst h; exact leafStep_eq e hs
  · subst h
    have hs2 : StrictDesc (l.filter (below t)) :=
      List.Pairwise.sublist (List.filter_sublist l) hs
    rw [leafStep_eq e hs2, posMem_filter_below (by omega)]
    have hff : (l.filter (below t)).filter (below e.pos) = l.filter (below e.pos) := by
      rw [List.filter_filter]
      refine List.filter_congr ?_
      intro x hx
      by_cases hb : x.pos < e.pos
      · have h1 : below e.pos x = true := by simp [below, hb]
        have h2 : below t x = true := by simp [below]; omega
        rw [h1, h2]
        rfl
      · have h1 : below e.pos x = false := by simp [below, hb]
        rw [h1]
        simp
    rw [hff]

/-- The denotation of a predicate expression depends only on the position of
the entry when its pure leaves do. -/
theorem predDen_posDet : ∀ {p : Pred}, PosDetP p → ∀ {x y : IndexEntry}, x.pos = y.pos →
    predDen p x = predDen p y
  | .pureP f, hf, x, y, hxy => hf x y hxy
  | .set op, _, x, y, hxy => by simp only [predDen, hxy]
  | .notIn p, hp, x, y, hxy => by
    simp only [predDen]
    rw [predDen_posDet (p := p) hp hxy]
  | .unionP a b, hab, x, y, hxy => by
    simp only [PosDetP] at hab
    simp only [predDen]
    rw [predDen_posDet (p := a) hab.1 hxy, predDen_posDet (p := b) hab.2 hxy]

theorem posMem_filter_posDet {l : List IndexEntry} {f : IndexEntry → Bool}
    (hf : ∀ x y : IndexEntry, x.pos = y.pos → f x = f y) (e : IndexEntry) :
    posMem (l.filter f) e.pos = (posMem l e.pos && f e) := by
  induction l with
  | nil => simp [posMem]
  | cons x xs ih =>
    rw [List.filter_cons]
    by_cases hxe : x.pos = e.pos
    · rw [hf x e hxe]
      cases hfe : f e
      · rw [if_neg (by simp), ih, posMem_cons, hfe]
        simp
      · rw [if_pos rfl, posMem_cons, posMem_cons, ih, hxe]
        simp [hfe]
    · have hxf : (x.pos == e.pos) = false := by simpa using hxe
      cases hfx : f x
      · rw [if_neg (by simp), ih, posMem_cons, hxf]
        simp
      · rw [if_pos rfl, posMem_cons, posMem_cons, ih, hxf]
        simp

/-- Driving a predicate closure along a strictly descending stream evaluates
its denotation pointwise, provided each single query is correct; used to
characterise FilterRevset::iter. -/
theorem filterRun_eq_of_step (p : Pred)
    (hstep : ∀ (p' : Pred) (q : Nat) (e : IndexEntry), PInv p p' q → e.pos < q →
      (predStep p' e).1 = predDen p e ∧ PInv p (predStep p' e).2 e.pos) :
    ∀ (l : List IndexEntry), StrictDesc l → filterRun p l = l.filter (fun x => predDen p x) := by
  have main : ∀ (l : List IndexEntry) (p' : Pred) (q : Nat), PInv p p' q → StrictDesc l →
      (∀ x ∈ l, x.pos < q) → filterRun p' l = l.filter (fun x => predDen p x) := by
    intro l
    induction l with
    | nil => intro p' q _ _ _; simp [filterRun]
    | cons x xs ih =>
      intro p' q hinv hs hbound
      obtain ⟨hx, hxs⟩ := strictDesc_cons.mp hs
      obtain ⟨h1, h2⟩ := hstep p' q x hinv (hbound x (List.mem_cons_self x xs))
      have hrec := ih (predStep p' x).2 x.pos h2 hxs hx
      simp only [filterRun, List.filter_cons]
      rw [h1, hrec]
  intro l hs
  cases l with
  | nil => simp [filterRun]
  | cons x xs =>
    refine main (x :: xs) p (x.pos + 1) (PInv_refl p (x.pos + 1)) hs ?_
    intro y hy
    rcases List.mem_cons.mp hy with h | h
    · subst h; omega
    · have := (strictDesc_cons.mp hs).1 y h; omega

mutual
/-- One in-order query of an operator closure in a reachable state answers
position membership in the iteration of the original operator, and leaves the
closure in a state reachable at the query position. -/
theorem opStep_correct : ∀ (op op' : Op) (q : Nat) (e : IndexEntry),
    Valid op → PosDetO op → OInv op op' q → e.pos < q →
    (opPredStep op' e).1 = posMem (iterOp op) e.pos ∧ OInv op (opPredStep op' e).2 e.pos
  | .eager l, _, q, e, hv, _, hinv, hlt => by
    cases hinv with
    | eager hinv =>
      simp only [Valid] at hv
      have h := leafStep_inv e hv hinv hlt
      refine ⟨?_, ?_⟩
      · simp only [opPredStep, iterOp, h]
      · simp only [opPredStep, h]
        exact .eager (Or.inr ⟨e.pos, le_refl _, rfl⟩)
  | .walk l, _, q, e, hv, _, hinv, hlt => by
    cases hinv with
    | walk hinv =>
      simp only [Valid] at hv
      have h := leafStep_inv e hv hinv hlt
      refine ⟨?_, ?_⟩
      · simp only [opPredStep, iterOp, h]
      · simp only [opPredStep, h]
        exact .walk (Or.inr ⟨e.pos, le_refl _, rfl⟩)
  | .filter c p, _, q, e, hv, hpd, hinv, hlt => by
    cases hinv with
    | filter hic hip =>
      rename_i c' p'
      simp only [Valid] at hv
      simp only [PosDetO] at hpd
      obtain ⟨hc1, hc2⟩ := opStep_correct c c' q e hv.1 hpd.1 hic hlt
      have hstep : ∀ (p2 : Pred) (q2 : Nat) (e2 : IndexEntry), PInv p p2 q2 → e2.pos < q2 →
          (predStep p2 e2).1 = predDen p e2 ∧ PInv p (predStep p2 e2).2 e2.pos :=
        fun p2 q2 e2 hi hl => predStep_correct p p2 q2 e2 hv.2 hpd.2 hi hl
      have hrun : filterRun p (iterOp c) = (iterOp c).filter (fun x => predDen p x) :=
        filterRun_eq_of_step p hstep (iterOp c) (iterOp_sorted c hv.1)
      have hmem : posMem (iterOp (.filter c p)) e.pos
          = (posMem (iterOp c) e.pos && predDen p e) := by
        simp only [iterOp]
        rw [hrun]
        exact posMem_filter_posDet (fun x y hxy => predDen_posDet hpd.2 hxy) e
      simp only [opPredStep]
      rw [hc1]
      cases hm : posMem (iterOp c) e.pos
      · rw [if_neg (by simp)]
        refine ⟨?_, .filter hc2 (PInv_mono hip (le_of_lt hlt))⟩
        rw [hmem, hm]
        simp
      · rw [if_pos rfl]
        obtain ⟨hp1, hp2⟩ := hstep p' q e hip hlt
        refine ⟨?_, .filter hc2 hp2⟩
        rw [hp1, hmem, hm]
        simp
  | .union a b, _, q, e, hv, hpd, hinv, hlt => by
    cases hinv with
    | union hia hib =>
      rename_i a' b'
      simp only [Valid] at hv
      simp only [PosDetO] at hpd
      obtain ⟨ha1, ha2⟩ := opStep_correct a a' q e hv.1 hpd.1 hia hlt
      have hmem : posMem (iterOp (.union a b)) e.pos
          = (posMem (iterOp a) e.pos || posMem (iterOp b) e.pos) := by
        simp only [iterOp]
        exact posMem_unionIter (iterOp a) (iterOp b) e.pos
      simp only [opPredStep]
      rw [ha1]
      cases hm : posMem (iterOp a) e.pos
      · obtain ⟨hb1, hb2⟩ := opStep_correct b b' q e hv.2 hpd.2 hib hlt
        rw [if_neg (by simp)]
        refine ⟨?_, .union ha2 hb2⟩
        rw [hb1, hmem, hm]
        simp
      · rw [if_pos rfl]
        refine ⟨?_, .union ha2 (OInv_mono hib (le_of_lt hlt))⟩
        rw [hmem, hm]
        simp
  | .inter a b, _, q, e, hv, hpd, hinv, hlt => by
    cases hinv with
    | inter hia hib =>
      rename_i a' b'
      simp only [Valid] at hv
      simp only [PosDetO] at hpd
      obtain ⟨ha1, ha2⟩ := opStep_correct a a' q e hv.1 hpd.1 hia hlt
      have hmem : posMem (iterOp (.inter a b)) e.pos
          = (posMem (iterOp a) e.pos && posMem (iterOp b) e.pos) := by
        simp only [iterOp]
        exact posMem_interIter (iterOp_sorted a hv.1) (iterOp_sorted b hv.2) e.pos
      simp only [opPredStep]
      rw [ha1]
      cases hm : posMem (iterOp a) e.pos
      · rw [if_neg (by simp)]
        refine ⟨?_, .inter ha2 (OInv_mono hib (le_of_lt hlt))⟩
        rw [hmem, hm]
        simp
      · rw [if_pos rfl]
        obtain ⟨hb1, hb2⟩ := opStep_correct b b' q e hv.2 hpd.2 hib hlt
        refine ⟨?_, .inter ha2 hb2⟩
        rw [hb1, hmem, hm]
        simp
  | .diff a b, _, q, e, hv, hpd, hinv, hlt => by
    cases hinv with
    | diff hia hib =>
      rename_i a' b'
      simp only [Valid] at hv
      simp only [PosDetO] at hpd
      obtain ⟨ha1, ha2⟩ := opStep_correct a a' q e hv.1 hpd.1 hia hlt
      have hmem : posMem (iterOp (.diff a b)) e.pos
          = (posMem (iterOp a) e.pos && !posMem (iterOp b) e.pos) := by
        simp only [iterOp]
        exact posMem_diffIter (iterOp_sorted a hv.1) (iterOp_sorted b hv.2) e.pos
      simp only [opPredStep]
      rw [ha1]
      cases hm : posMem (iterOp a) e.pos
      · rw [if_neg (by simp)]
        refine ⟨?_, .diff ha2 (OInv_mono hib (le_of_lt hlt))⟩
        rw [hmem, hm]
        simp
      · rw [if_pos rfl]
        obtain ⟨hb1, hb2⟩ := opStep_correct b b' q e hv.2 hpd.2 hib hlt
        refine ⟨?_, .diff ha2 hb2⟩
        rw [hb1, hmem, hm]
        simp

theorem predStep_correct : ∀ (p p' : Pred) (q : Nat) (e : IndexEntry),
    ValidP p → PosDetP p → PInv p p' q → e.pos < q →
    (predStep p' e).1 = predDen p e ∧ PInv p (predStep p' e).2 e.pos
  | .pureP f, _, q, e, _, _, hinv, _ => by
    cases hinv with
    | pureP =>
      refine ⟨?_, ?_⟩
      · simp only [predStep, predDen]
      · simp only [predStep]
        exact .pureP
  | .set op, _, q, e, hv, hpd, hinv, hlt => by
    cases hinv with
    | set hio =>
      rename_i op2
      simp only [ValidP] at hv
      simp only [PosDetP] at hpd
      obtain ⟨h1, h2⟩ := opStep_correct op op2 q e hv hpd hio hlt
      simp only [predStep, predDen]
      exact ⟨h1, .set h2⟩
  | .notIn p, _, q, e, hv, hpd, hinv, hlt => by
    cases hinv with
    | notIn hi =>
      rename_i p2
      simp only [ValidP] at hv
      simp only [PosDetP] at hpd
      obtain ⟨h1, h2⟩ := predStep_correct p p2 q e hv hpd hi hlt
      simp only [predStep, predDen]
      rw [h1]
      exact ⟨rfl, .notIn h2⟩
  | .unionP a b, _, q, e, hv, hpd, hinv, hlt => by
    cases hinv with
    | unionP hia hib =>
      rename_i a' b'
      simp only [ValidP] at hv
      simp only [PosDetP] at hpd
      obtain ⟨ha1, ha2⟩ := predStep_correct a a' q e hv.1 hpd.1 hia hlt
      simp only [predStep, predDen]
      rw [ha1]
      cases hm : predDen a e
      · obtain ⟨hb1, hb2⟩ := predStep_correct b b' q e hv.2 hpd.2 hib hlt
        rw [if_neg (by simp)]
        refine ⟨?_, .unionP ha2 hb2⟩
        rw [hb1]
        simp
      · rw [if_pos rfl]
        exact ⟨by simp, .unionP ha2 (PInv_mono hib (le_of_lt hlt))⟩
end

/-- Running an operator closure (from any reachable state) along a strictly
descending query sequence bounded by the state answers position membership in
the original iteration, pointwise. -/
theorem opPredRun_eq_of_inv : ∀ (qs : List IndexEntry) (op op' : Op) (q : Nat),
    Valid op → PosDetO op → OInv op op' q → StrictDesc qs → (∀ x ∈ qs, x.pos < q) →
    opPredRun op' qs = qs.map (fun e => posMem (iterOp op) e.pos) := by
  intro qs
  induction qs with
  | nil => intro op op' q _ _ _ _ _; simp [opPredRun]
  | cons x xs ih =>
    intro op op' q hv hpd hinv hqs hbound
    obtain ⟨hx, hxs⟩ := strictDesc_cons.mp hqs
    obtain ⟨h1, h2⟩ := opStep_correct op op' q x hv hpd hinv
      (hbound x (List.mem_cons_self x xs))
    simp only [opPredRun, List.map_cons]
    rw [h1, ih op (opPredStep op' x).2 x.pos hv hpd h2 hxs hx]

/-! ### Claims C1, C2, C5, C9 -/

/-- C1: for every operator node (Eager, Walk, Filter, Union, Intersection,
Difference), if each child stream yields entries in strictly descending
position with no duplicates, then the sequence of positions produced by the
node's iter() is strictly decreasing, hence also without duplicate
positions. -/
theorem claim_C1_operator_streams_strictly_descending (op : Op) (hv : Valid op) :
    (iterOp op).Pairwise (fun a b => b.pos < a.pos) :=
  iterOp_sorted op hv

theorem claim_C1_witness :
    Valid (Op.union (.eager [ent 4, ent 2]) (.filter (.eager [ent 3, ent 1]) (.set (.walk [ent 3])))) ∧
    (iterOp (Op.union (.eager [ent 4, ent 2]) (.filter (.eager [ent 3, ent 1]) (.set (.walk [ent 3]))))).Pairwise
      (fun a b => b.pos < a.pos) := by
  have hv : Valid (Op.union (.eager [ent 4, ent 2])
      (.filter (.eager [ent 3, ent 1]) (.set (.walk [ent 3])))) := by
    simp only [Valid, ValidP]
    exact ⟨by decide, by decide, by decide⟩
  exact ⟨hv, claim_C1_operator_streams_strictly_descending _ hv⟩

/-- C2: for every operator node O with strictly descending child streams (and
pure leaf predicates that, like the closures built by build_predicate_fn,
depend on an entry only through its position), querying the stateful closure
O.to_predicate_fn() along any strictly descending sequence of entries answers,
for each queried entry e, exactly whether the position of e occurs in
O.iter(); queried entries may skip over elements of the iteration. -/
theorem claim_C2_predicate_fn_matches_iter (op : Op) (qs : List IndexEntry)
    (hv : Valid op) (hpd : PosDetO op) (hqs : StrictDesc qs) :
    opPredRun op qs = qs.map (fun e => posMem (iterOp op) e.pos) := by
  cases qs with
  | nil => simp [opPredRun]
  | cons x xs =>
    refine opPredRun_eq_of_inv (x :: xs) op op (x.pos + 1) hv hpd (OInv_refl op _) hqs ?_
    intro y hy
    rcases List.mem_cons.mp hy with h | h
    · subst h; omega
    · have := (strictDesc_cons.mp hqs).1 y h; omega

theorem claim_C2_witness :
    (Valid (Op.diff (.eager [ent 4, ent 2, ent 0]) (.eager [ent 3, ent 2, ent 1])) ∧
     PosDetO (Op.diff (.eager [ent 4, ent 2, ent 0]) (.eager [ent 3, ent 2, ent 1])) ∧
     StrictDesc [ent 4, ent 3, ent 2, ent 1, ent 0]) ∧
    opPredRun (Op.diff (.eager [ent 4, ent 2, ent 0]) (.eager [ent 3, ent 2, ent 1]))
        [ent 4, ent 3, ent 2, ent 1, ent 0]
      = [ent 4, ent 3, ent 2, ent 1, ent 0].map
          (fun e => posMem (iterOp (Op.diff (.eager [ent 4, ent 2, ent 0])
            (.eager [ent 3, ent 2, ent 1]))) e.pos) := by
  have hv : Valid (Op.diff (.eager [ent 4, ent 2, ent 0]) (.eager [ent 3, ent 2, ent 1])) := by
    simp only [Valid]
    exact ⟨by decide, by decide⟩
  have hpd : PosDetO (Op.diff (.eager [ent 4, ent 2, ent 0]) (.eager [ent 3, ent 2, ent 1])) := by
    simp only [PosDetO]
    exact ⟨trivial, trivial⟩
  have hqs : StrictDesc [ent 4, ent 3, ent 2, ent 1, ent 0] := by decide
  exact ⟨⟨hv, hpd, hqs⟩, claim_C2_predicate_fn_matches_iter _ _ hv hpd hqs⟩

/-- C5: for strictly descending inputs, Difference(a, b).iter() yields exactly
the entries of a whose position does not occur in b, in the same descending
order; and on the five-commit chain, the difference of the sets with positions
4, 2, 0 and 3, 2, 1 iterates as the entries at positions 4 and 0. -/
theorem claim_C5_difference_semantics :
    (∀ a b : List IndexEntry, StrictDesc a → StrictDesc b →
      diffIter a b = a.filter (fun x => !posMem b x.pos)) ∧
    iterOp (Op.diff (.eager [chainEntry 4, chainEntry 2, chainEntry 0])
        (.eager [chainEntry 3, chainEntry 2, chainEntry 1]))
      = [chainEntry 4, chainEntry 0] :=
  ⟨fun _ _ ha hb => diffIter_eq_filter ha hb, by
    have h := diffIter_eq_filter (a := [chainEntry 4, chainEntry 2, chainEntry 0])
      (b := [chainEntry 3, chainEntry 2, chainEntry 1]) (by decide) (by decide)
    simp only [iterOp, h]
    decide⟩

theorem claim_C5_witness :
    StrictDesc [chainEntry 4, chainEntry 2, chainEntry 0] ∧
    StrictDesc [chainEntry 3, chainEntry 2, chainEntry 1] ∧
    diffIter [chainEntry 4, chainEntry 2, chainEntry 0] [chainEntry 3, chainEntry 2, chainEntry 1]
      = [chainEntry 4, chainEntry 2, chainEntry 0].filter
          (fun x => !posMem [chainEntry 3, chainEntry 2, chainEntry 1] x.pos) := by
  have h1 : StrictDesc [chainEntry 4, chainEntry 2, chainEntry 0] := by decide
  have h2 : StrictDesc [chainEntry 3, chainEntry 2, chainEntry 1] := by decide
  exact ⟨h1, h2, claim_C5_difference_semantics.1 _ _ h1 h2⟩

/-- C9 counterexample: the claim that a predicate closure never advances its
internal cursor on an out-of-order query fails for composite closures.  For
the union operator below, querying at position 10 answers true from the first
child, so short-circuit evaluation leaves the second child cursor untouched;
a later out-of-order query at position 12 (which is not below 10) then makes
the second child cursor skip past its entry at position 20: the leaf cursor
states of the closure change. -/
theorem claim_C9_counterexample :
    Valid (Op.union (.eager [ent 10]) (.eager [ent 20, ent 5])) ∧
    (ent 10).pos ≤ (ent 12).pos ∧
    leafLists (opPredStep (opPredStep (Op.union (.eager [ent 10]) (.eager [ent 20, ent 5]))
        (ent 10)).2 (ent 12)).2
      ≠ leafLists (opPredStep (Op.union (.eager [ent 10]) (.eager [ent 20, ent 5]))
        (ent 10)).2 := by
  refine ⟨?_, by decide, by decide⟩
  simp only [Valid]
  exact ⟨by decide, by decide⟩

/-- C9 amended: the closures produced by predicate_fn_from_iter, i.e. the
to_predicate_fn of the Eager and Walk operators, answer false and leave the
cursor unchanged on any query whose position is not below the positions
already consumed; composite operators' closures, by contrast, may advance the
cursors of children skipped by short-circuit evaluation (see the
counterexample). -/
theorem claim_C9_amended_leaf_out_of_order (s : List IndexEntry) (p : Nat) (e : IndexEntry)
    (hstate : ∀ x ∈ s, x.pos < p) (hq : p ≤ e.pos) :
    opPredStep (.eager s) e = (false, .eager s) ∧
    opPredStep (.walk s) e = (false, .walk s) := by
  have h := leafStep_out_of_order e hstate hq
  constructor <;> simp only [opPredStep, h]

theorem claim_C9_witness :
    (∀ x ∈ [ent 5], x.pos < 10) ∧ 10 ≤ (ent 12).pos ∧
    (opPredStep (.eager [ent 5]) (ent 12) = (false, .eager [ent 5]) ∧
     opPredStep (.walk [ent 5]) (ent 12) = (false, .walk [ent 5])) := by
  have h1 : ∀ x ∈ [ent 5], x.pos < 10 := by decide
  have h2 : (10 : Nat) ≤ (ent 12).pos := by decide
  exact ⟨h1, h2, claim_C9_amended_leaf_out_of_order _ _ _ h1 h2⟩

/-! ### Order facts about raw byte keys -/

theorem bytesLt_irrefl : ∀ k : ObjKey, bytesLt k k = false
  | [] => rfl
  | a :: as_ => by simp [bytesLt, bytesLt_irrefl as_]

theorem bytesLt_trans : ∀ {a b c : ObjKey},
    bytesLt a b = true → bytesLt b c = true → bytesLt a c = true
  | [], [], _, h1, _ => by simp [bytesLt] at h1
  | [], _ :: _, [], _, h2 => by simp [bytesLt] at h2
  | [], _ :: _, _ :: _, _, _ => rfl
  | _ :: _, [], _, h1, _ => by simp [bytesLt] at h1
  | _ :: _, _ :: _, [], _, h2 => by simp [bytesLt] at h2
  | a :: as_, b :: bs, c :: cs, h1, h2 => by
    simp only [bytesLt, Bool.or_eq_true, Bool.and_eq_true, beq_iff_eq,
      decide_eq_true_eq] at h1 h2 ⊢
    rcases h1 with h1 | ⟨hab, h1⟩
    · rcases h2 with h2 | ⟨hbc, h2⟩
      · exact Or.inl (by omega)
      · exact Or.inl (by omega)
    · rcases h2 with h2 | ⟨hbc, h2⟩
      · exact Or.inl (by omega)
      · exact Or.inr ⟨by omega, bytesLt_trans h1 h2⟩

theorem bytesLt_total : ∀ a b : ObjKey, bytesLt a b = true ∨ a = b ∨ bytesLt b a = true
  | [], [] => Or.inr (Or.inl rfl)
  | [], _ :: _ => Or.inl rfl
  | _ :: _, [] => Or.inr (Or.inr rfl)
  | a :: as_, b :: bs => by
    rcases Nat.lt_trichotomy a b with h | h | h
    · left; simp [bytesLt, h]
    · subst h
      rcases bytesLt_total as_ bs with h2 | h2 | h2
      · left; simp [bytesLt, h2]
      · right; left; rw [h2]
      · right; right; simp [bytesLt, h2]
    · right; right; simp [bytesLt, h]

theorem bytesLt_asymm {a b : ObjKey} (h : bytesLt a b = true) : bytesLt b a = false := by
  cases hc : bytesLt b a
  · rfl
  · have := bytesLt_trans h hc
    rw [bytesLt_irrefl] at this
    exact absurd this (by simp)

theorem bytesLe_refl (a : ObjKey) : BytesLe a a := Or.inr rfl

theorem bytesLe_trans {a b c : ObjKey} (h1 : BytesLe a b) (h2 : BytesLe b c) : BytesLe a c := by
  rcases h1 with h1 | h1
  · rcases h2 with h2 | h2
    · exact Or.inl (bytesLt_trans h1 h2)
    · exact h2 ▸ Or.inl h1
  · exact h1 ▸ h2

theorem bytesLe_nil_inv {x : Nat} {as_ : ObjKey} (h : BytesLe (x :: as_) []) : False := by
  rcases h with h | h
  · simp [bytesLt] at h
  · simp at h

theorem bytesLe_cons_inv {x y : Nat} {as_ bs : ObjKey} (h : BytesLe (x :: as_) (y :: bs)) :
    x < y ∨ (x = y ∧ BytesLe as_ bs) := by
  rcases h with h | h
  · simp only [bytesLt, Bool.or_eq_true, Bool.and_eq_true, beq_iff_eq,
      decide_eq_true_eq] at h
    rcases h with h | ⟨h1, h2⟩
    · exact Or.inl h
    · exact Or.inr ⟨h1, Or.inl h2⟩
  · injection h with h1 h2
    exact Or.inr ⟨h1, h2 ▸ bytesLe_refl as_⟩

theorem bytesLe_of_not_lt {a b : ObjKey} (h : bytesLt a b = false) : BytesLe b a := by
  rcases bytesLt_total a b with h2 | h2 | h2
  · rw [h2] at h; exact absurd h (by simp)
  · exact Or.inr h2.symm
  · exact Or.inl h2

/-! ### Facts about common hex length -/

theorem commonHexLen_comm : ∀ a b : ObjKey, commonHexLen a b = commonHexLen b a
  | [], [] => rfl
  | [], _ :: _ => rfl
  | _ :: _, [] => rfl
  | a :: as_, b :: bs => by
    simp only [commonHexLen]
    by_cases h : a = b
    · subst h
      rw [if_pos rfl, if_pos rfl, commonHexLen_comm as_ bs]
    · rw [if_neg h, if_neg (Ne.symm h)]
      by_cases h2 : a / 16 = b / 16
      · rw [if_pos h2, if_pos h2.symm]
      · rw [if_neg h2, if_neg (Ne.symm h2)]

theorem commonHexLen_le_len : ∀ a b : ObjKey, commonHexLen a b ≤ 2 * a.length
  | [], _ => Nat.zero_le _
  | _ :: _, [] => Nat.zero_le _
  | a :: as_, b :: bs => by
    simp only [commonHexLen, List.length_cons]
    split
    · have := commonHexLen_le_len as_ bs
      omega
    · split <;> omega

theorem commonHexLen_append : ∀ k t : ObjKey, commonHexLen k (k ++ t) = 2 * k.length
  | [], _ => rfl
  | a :: as_, t => by
    simp only [List.cons_append, commonHexLen, List.length_cons, List.append_eq]
    rw [if_pos trivial, commonHexLen_append as_ t]
    omega

/-- The neighbour-maximality fact: when a key lies between two others in byte
order, its common hex length with either end is at least as long as that of
the two ends. -/
theorem commonHexLen_squeeze : ∀ {a b c : ObjKey}, BytesLe a b → BytesLe b c →
    commonHexLen a c ≤ commonHexLen a b ∧ commonHexLen a c ≤ commonHexLen b c
  | [], _, c, _, _ => by
    constructor <;> exact Nat.zero_le _
  | _ :: _, [], _, hab, _ => (bytesLe_nil_inv hab).elim
  | _ :: _, _ :: _, [], _, hbc => (bytesLe_nil_inv hbc).elim
  | a :: as_, b :: bs, c :: cs, hab, hbc => by
    have hab2 := bytesLe_cons_inv hab
    have hbc2 := bytesLe_cons_inv hbc
    have hab_head : a ≤ b := by rcases hab2 with h | ⟨h, _⟩ <;> omega
    have hbc_head : b ≤ c := by rcases hbc2 with h | ⟨h, _⟩ <;> omega
    by_cases hac : a = c
    · have hba : b = a := by omega
      obtain h | ⟨_, htail1⟩ := hab2
      · omega
      obtain h | ⟨_, htail2⟩ := hbc2
      · omega
      obtain ⟨ih1, ih2⟩ := commonHexLen_squeeze htail1 htail2
      simp only [commonHexLen]
      rw [if_pos hac, if_pos (show a = b by omega), if_pos (show b = c by omega)]
      omega
    · simp only [commonHexLen]
      rw [if_neg hac]
      by_cases hdiv : a / 16 = c / 16
      · rw [if_pos hdiv]
        have h1 : a / 16 ≤ b / 16 := Nat.div_le_div_right hab_head
        have h2 : b / 16 ≤ c / 16 := Nat.div_le_div_right hbc_head
        have hdab : a / 16 = b / 16 := by omega
        have hdbc : b / 16 = c / 16 := by omega
        constructor
        · by_cases h : a = b
          · rw [if_pos h]; omega
          · rw [if_neg h, if_pos hdab]
        · by_cases h : b = c
          · rw [if_pos h]; omega
          · rw [if_neg h, if_pos hdbc]
      · rw [if_neg hdiv]
        exact ⟨Nat.zero_le _, Nat.zero_le _⟩

/-! ### Nibble-level facts -/

theorem toNibbles_length : ∀ k : ObjKey, (toNibbles k).length = 2 * k.length
  | [] => rfl
  | _ :: bs => by
    simp only [toNibbles, List.length_cons, toNibbles_length bs]
    omega

theorem toNibbles_inj : ∀ {a b : ObjKey}, toNibbles a = toNibbles b → a = b
  | [], [], _ => rfl
  | [], _ :: _, h => by simp [toNibbles] at h
  | _ :: _, [], h => by simp [toNibbles] at h
  | a :: as_, b :: bs, h => by
    simp only [toNibbles, List.cons.injEq] at h
    obtain ⟨h1, h2, h3⟩ := h
    have hab : a = b := by omega
    rw [hab, toNibbles_inj h3]

theorem bytesLt_toNibbles : ∀ a b : ObjKey, bytesLt (toNibbles a) (toNibbles b) = bytesLt a b
  | [], [] => rfl
  | [], _ :: _ => rfl
  | _ :: _, [] => rfl
  | a :: as_, b :: bs => by
    simp only [toNibbles, bytesLt, bytesLt_toNibbles as_ bs]
    rcases Nat.lt_trichotomy a b with h | h | h
    · have h1 : a / 16 < b / 16 ∨ (a / 16 = b / 16 ∧ a % 16 < b % 16) := by omega
      rcases h1 with h1 | ⟨h1, h2⟩
      · simp [h, h1]
      · simp [h, h1, h2]
    · subst h
      simp
    · have h1 : b / 16 < a / 16 ∨ (b / 16 = a / 16 ∧ b % 16 < a % 16) := by omega
      have h0 : ¬ a < b := by omega
      have h0b : a ≠ b := by omega
      rcases h1 with h1 | ⟨h1, h2⟩
      · have e1 : (a / 16 == b / 16) = false := by simp; omega
        have e2 : (a == b) = false := by simpa using h0b
        have e3 : (decide (a / 16 < b / 16)) = false := by simp; omega
        have e4 : (decide (a < b)) = false := by simp; omega
        rw [e1, e2, e3, e4]
        simp
      · have e1 : (a % 16 == b % 16) = false := by simp; omega
        have e2 : (a == b) = false := by simpa using h0b
        have e3 : (decide (a % 16 < b % 16)) = false := by simp; omega
        have e4 : (decide (a < b)) = false := by simp; omega
        have e5 : (a / 16 == b / 16) = true := by simp; omega
        have e6 : (decide (a / 16 < b / 16)) = false := by simp; omega
        rw [e1, e2, e3, e4, e5, e6]
        simp

theorem bytesLe_toNibbles {a b : ObjKey} : BytesLe a b ↔ BytesLe (toNibbles a) (toNibbles b) := by
  constructor
  · rintro (h | h)
    · exact Or.inl (by rw [bytesLt_toNibbles]; exact h)
    · exact Or.inr (by rw [h])
  · rintro (h | h)
    · rw [bytesLt_toNibbles] at h
      exact Or.inl h
    · exact Or.inr (toNibbles_inj h)

theorem isPrefixOf_iff_exists : ∀ {l1 l2 : List Nat},
    l1.isPrefixOf l2 = true ↔ ∃ t, l2 = l1 ++ t := by
  intro l1
  induction l1 with
  | nil =>
    intro l2
    simp [List.isPrefixOf]
  | cons x xs ih =>
    intro l2
    cases l2 with
    | nil => simp [List.isPrefixOf]
    | cons y ys =>
      simp only [List.isPrefixOf, Bool.and_eq_true, beq_iff_eq, ih, List.cons_append]
      constructor
      · rintro ⟨hxy, t, ht⟩
        subst hxy
        exact ⟨t, by rw [ht]⟩
      · rintro ⟨t, ht⟩
        injection ht with h1 h2
        exact ⟨h1.symm, t, h2⟩

theorem bytesLe_nil (t : List Nat) : BytesLe [] t := by
  cases t with
  | nil => exact Or.inr rfl
  | cons _ _ => exact Or.inl rfl

theorem bytesLe_append_left : ∀ (d : List Nat) {x y : List Nat},
    BytesLe x y → BytesLe (d ++ x) (d ++ y)
  | [], _, _, h => h
  | a :: d, x, y, h => by
    rcases bytesLe_append_left d h with h2 | h2
    · left
      simp [List.cons_append, bytesLt, h2]
    · right
      rw [List.cons_append, List.cons_append, h2]

/-- Lexicographic squeeze: a list between two lists sharing a common leading
run also carries that leading run. -/
theorem prefix_squeeze : ∀ (m : List Nat) {a b c : List Nat}, BytesLe a b → BytesLe b c →
    (∃ ta, a = m ++ ta) → (∃ tc, c = m ++ tc) → ∃ tb, b = m ++ tb
  | [], _, b, _, _, _, _, _ => ⟨b, rfl⟩
  | d :: m, a, b, c, hab, hbc, ⟨ta, hta⟩, ⟨tc, htc⟩ => by
    subst hta
    subst htc
    rw [List.cons_append] at hab hbc
    cases b with
    | nil => exact (bytesLe_nil_inv hab).elim
    | cons y bs =>
      obtain h1 | ⟨heq1, htail1⟩ := bytesLe_cons_inv hab
      · obtain h2 | ⟨heq2, _⟩ := bytesLe_cons_inv hbc
        · omega
        · omega
      · obtain h2 | ⟨heq2, htail2⟩ := bytesLe_cons_inv hbc
        · omega
        · obtain ⟨tb, htb⟩ := prefix_squeeze m htail1 htail2 ⟨ta, rfl⟩ ⟨tc, rfl⟩
          subst heq1
          exact ⟨tb, by rw [htb, List.cons_append]⟩

theorem toNibbles_minPfxBytes : ∀ {d : List Nat}, (∀ x ∈ d, x < 16) →
    toNibbles (minPfxBytes d) = d ++ (if d.length % 2 = 0 then [] else [0])
  | [], _ => rfl
  | [a], _ => by
    have h1 : 16 * a / 16 = a := by omega
    have h2 : 16 * a % 16 = 0 := by omega
    simp [minPfxBytes, toNibbles, h1, h2]
  | a :: b :: rest, hd => by
    have hb : b < 16 := hd b (by simp)
    have h1 : (16 * a + b) / 16 = a := by omega
    have h2 : (16 * a + b) % 16 = b := by omega
    have hrec := toNibbles_minPfxBytes (d := rest) (fun x hx => hd x (by simp [hx]))
    have hpar : (a :: b :: rest).length % 2 = rest.length % 2 := by
      simp only [List.length_cons]
      omega
    simp only [minPfxBytes, toNibbles, h1, h2, hrec, List.cons_append, hpar]

/-- Every key matched by a prefix is at or above min_prefix_bytes in byte
order. -/
theorem min_le_of_matches {p : HexPfx} (hd : ∀ x ∈ p.digits, x < 16) {k : ObjKey}
    (h : hpMatches p k = true) : BytesLe (minPfxBytes p.digits) k := by
  rw [bytesLe_toNibbles]
  obtain ⟨t, ht⟩ := isPrefixOf_iff_exists.mp h
  rw [toNibbles_minPfxBytes hd, ht]
  by_cases hpar : p.digits.length % 2 = 0
  · rw [if_pos hpar]
    exact bytesLe_append_left _ (bytesLe_nil t)
  · rw [if_neg hpar]
    have hlen : (toNibbles k).length = 2 * k.length := toNibbles_length k
    rw [ht] at hlen
    cases t with
    | nil =>
      rw [List.append_nil] at hlen
      omega
    | cons u t2 =>
      refine bytesLe_append_left _ ?_
      rcases Nat.eq_zero_or_pos u with h0 | hpos
      · subst h0
        cases t2 with
        | nil => exact Or.inr rfl
        | cons v t3 =>
          left
          simp [bytesLt]
      · left
        simp [bytesLt]
        omega

theorem not_matches_of_lt_min {p : HexPfx} (hd : ∀ x ∈ p.digits, x < 16) {k : ObjKey}
    (hlt : bytesLt k (minPfxBytes p.digits) = true) : hpMatches p k = false := by
  cases hm : hpMatches p k
  · rfl
  · rcases min_le_of_matches hd hm with h | h
    · rw [bytesLt_asymm h] at hlt
      exact absurd hlt (by simp)
    · rw [h, bytesLt_irrefl] at hlt
      exact absurd hlt (by simp)

/-- A key squeezed between min_prefix_bytes and a matching key also
matches. -/
theorem matches_squeeze {p : HexPfx} (hd : ∀ x ∈ p.digits, x < 16) {x y : ObjKey}
    (hminx : BytesLe (minPfxBytes p.digits) x) (hxy : BytesLe x y)
    (hy : hpMatches p y = true) : hpMatches p x = true := by
  obtain ⟨tc, htc⟩ := isPrefixOf_iff_exists.mp hy
  have ha : ∃ ta, toNibbles (minPfxBytes p.digits) = p.digits ++ ta := by
    rw [toNibbles_minPfxBytes hd]
    exact ⟨_, rfl⟩
  have hminx2 := bytesLe_toNibbles.mp hminx
  have hxy2 := bytesLe_toNibbles.mp hxy
  obtain ⟨tb, htb⟩ := prefix_squeeze p.digits hminx2 hxy2 ha ⟨tc, htc⟩
  exact isPrefixOf_iff_exists.mpr ⟨tb, htb⟩

/-! ### List helpers: partition point, neighbours, find? -/

theorem drop_takeWhile_length {α : Type} (pred : α → Bool) :
    ∀ l : List α, l.drop ((l.takeWhile pred).length) = l.dropWhile pred
  | [] => rfl
  | x :: xs => by
    rw [List.takeWhile_cons, List.dropWhile_cons]
    by_cases h : pred x
    · rw [if_pos h, if_pos h]
      simp only [List.length_cons, List.drop_succ_cons]
      exact drop_takeWhile_length pred xs
    · rw [if_neg h, if_neg h]
      simp

theorem sorted_dropWhile_not_lt {V : Type} :
    ∀ {idx : List (ObjKey × V)}, KeysSorted idx → ∀ (k0 : ObjKey),
    ∀ kv ∈ idx.dropWhile (fun kv => bytesLt kv.1 k0), bytesLt kv.1 k0 = false := by
  intro idx
  induction idx with
  | nil => intro _ k0 kv hkv; simp at hkv
  | cons x xs ih =>
    intro hs k0 kv hkv
    obtain ⟨hx, hxs⟩ := List.pairwise_cons.mp hs
    rw [List.dropWhile_cons] at hkv
    by_cases h : bytesLt x.1 k0
    · rw [if_pos h] at hkv
      exact ih hxs k0 kv hkv
    · rw [if_neg h] at hkv
      rcases List.mem_cons.mp hkv with h2 | h2
      · subst h2
        exact Bool.eq_false_iff.mpr h
      · cases hc : bytesLt kv.1 k0
        · rfl
        · rcases hx kv h2 with h3 | h3
          · have := bytesLt_trans h3 hc
            exact absurd this h
          · rw [h3] at h
            exact absurd hc h

theorem le_foldr_max : ∀ {l : List Nat} {a : Nat}, a ∈ l → a ≤ l.foldr max 0 := by
  intro l
  induction l with
  | nil => intro a ha; simp at ha
  | cons x xs ih =>
    intro a ha
    rcases List.mem_cons.mp ha with h | h
    · subst h
      exact le_max_left _ _
    · exact le_trans (ih h) (le_max_right _ _)

/-- The element before the partition point is the last element of the
satisfying run. -/
theorem left_eq_getLast {α : Type} (pred : α → Bool) : ∀ l : List α,
    (if (l.takeWhile pred).length = 0 then none
      else l.get? ((l.takeWhile pred).length - 1)) = (l.takeWhile pred).getLast? := by
  intro l
  induction l with
  | nil => rfl
  | cons x xs ih =>
    rw [List.takeWhile_cons]
    by_cases h : pred x
    · rw [if_pos h, if_neg (by simp)]
      cases htw : xs.takeWhile pred with
      | nil => simp [htw]
      | cons y ys =>
        rw [htw] at ih
        rw [if_neg (by simp)] at ih
        simp only [List.length_cons, Nat.add_sub_cancel] at ih ⊢
        rw [List.get?_cons_succ, List.getLast?_cons_cons]
        exact ih
    · rw [if_neg h]
      rfl

theorem mem_le_getLast {V : Type} : ∀ {l : List (ObjKey × V)}, KeysSorted l →
    ∀ {y : ObjKey × V}, l.getLast? = some y → ∀ x ∈ l, BytesLe x.1 y.1 := by
  intro l
  induction l with
  | nil => intro _ y hy; simp at hy
  | cons a as ih =>
    intro hs y hy x hx
    obtain ⟨ha, has⟩ := List.pairwise_cons.mp hs
    cases as with
    | nil =>
      simp only [List.getLast?_singleton, Option.some.injEq] at hy
      subst hy
      rcases List.mem_cons.mp hx with h | h
      · exact h ▸ bytesLe_refl _
      · simp at h
    | cons b bs =>
      rw [List.getLast?_cons_cons] at hy
      rcases List.mem_cons.mp hx with h | h
      · subst h
        have hymem : y ∈ b :: bs := List.mem_of_mem_getLast? (by rw [hy]; rfl)
        exact ha y hymem
      · exact ih has hy x h

theorem find?_decomp {α : Type} {p : α → Bool} : ∀ {l : List α} {r : α}, l.find? p = some r →
    ∃ l1 l2, l = l1 ++ r :: l2 ∧ ∀ x ∈ l1, p x = false := by
  intro l
  induction l with
  | nil => intro r h; simp at h
  | cons x xs ih =>
    intro r h
    by_cases hp : p x
    · rw [List.find?_cons_of_pos _ hp] at h
      injection h with h
      exact ⟨[], xs, by rw [h]; rfl, by simp⟩
    · rw [List.find?_cons_of_neg _ hp] at h
      obtain ⟨l1, l2, heq, hall⟩ := ih h
      refine ⟨x :: l1, l2, by rw [heq, List.cons_append], ?_⟩
      intro y hy
      rcases List.mem_cons.mp hy with h2 | h2
      · subst h2
        exact Bool.eq_false_iff.mpr hp
      · exact hall y h2

/-- shortest_unique_prefix_len, with the insertion-point arithmetic replaced
by its meaning: the left neighbour is the last key below the probe, the right
neighbour the first key at or above it whose key differs. -/
theorem suPL_neighbors {V : Type} (idx : List (ObjKey × V)) (key : ObjKey) :
    shortestUniquePrefixLen idx key =
      ((((idx.takeWhile (fun kv => bytesLt kv.1 key)).getLast?).toList
        ++ ((idx.dropWhile (fun kv => bytesLt kv.1 key)).find? (fun kv => kv.1 != key)).toList).map
          (fun kv => commonHexLen key kv.1 + 1)).foldr max 0 := by
  simp only [shortestUniquePrefixLen, partitionPoint]
  rw [drop_takeWhile_length, left_eq_getLast]

/-- Every key in the index other than the probe shares strictly fewer leading
hex digits with the probe than the returned length. -/
theorem suPL_gt_common {V : Type} {idx : List (ObjKey × V)} (hs : KeysSorted idx)
    (key : ObjKey) : ∀ kv ∈ idx, kv.1 ≠ key →
    commonHexLen key kv.1 < shortestUniquePrefixLen idx key := by
  intro kv hkv hne
  rw [suPL_neighbors]
  have hsplit := List.takeWhile_append_dropWhile (fun kv => bytesLt kv.1 key) idx
  have hmem : kv ∈ idx.takeWhile (fun kv => bytesLt kv.1 key) ∨
      kv ∈ idx.dropWhile (fun kv => bytesLt kv.1 key) := by
    rw [← hsplit] at hkv
    exact List.mem_append.mp hkv
  rcases hmem with hm | hm
  · have hkvlt : bytesLt kv.1 key = true :=
      List.mem_takeWhile_imp (p := fun kv : ObjKey × V => bytesLt kv.1 key) hm
    obtain ⟨y, hy⟩ : ∃ y, (idx.takeWhile (fun kv => bytesLt kv.1 key)).getLast? = some y := by
      cases htw : (idx.takeWhile (fun kv => bytesLt kv.1 key)).getLast? with
      | none =>
        rw [List.getLast?_eq_none_iff] at htw
        rw [htw] at hm
        simp at hm
      | some y => exact ⟨y, rfl⟩
    have htwsorted : KeysSorted (idx.takeWhile (fun kv => bytesLt kv.1 key)) :=
      List.Pairwise.sublist (List.takeWhile_sublist _) hs
    have hymem : y ∈ idx.takeWhile (fun kv => bytesLt kv.1 key) :=
      List.mem_of_mem_getLast? (by rw [hy]; rfl)
    have hylt : bytesLt y.1 key = true :=
      List.mem_takeWhile_imp (p := fun kv : ObjKey × V => bytesLt kv.1 key) hymem
    have hkv_le_y : BytesLe kv.1 y.1 := mem_le_getLast htwsorted hy kv hm
    have hsq := (commonHexLen_squeeze hkv_le_y (Or.inl hylt)).2
    rw [hy]
    have hfold : commonHexLen key y.1 + 1 ∈
        ((some y).toList ++ ((idx.dropWhile (fun kv => bytesLt kv.1 key)).find?
          (fun kv => kv.1 != key)).toList).map (fun kv => commonHexLen key kv.1 + 1) := by
      simp
    have hle := le_foldr_max hfold
    rw [commonHexLen_comm key kv.1]
    rw [commonHexLen_comm key y.1] at hle
    omega
  · have hkvne : (kv.1 != key) = true := by simpa using hne
    obtain ⟨r, hr⟩ : ∃ r, (idx.dropWhile (fun kv => bytesLt kv.1 key)).find?
        (fun kv => kv.1 != key) = some r := by
      cases hf : (idx.dropWhile (fun kv => bytesLt kv.1 key)).find? (fun kv => kv.1 != key) with
      | none => exact absurd hkvne (List.find?_eq_none.mp hf kv hm)
      | some r => exact ⟨r, rfl⟩
    obtain ⟨l1, l2, hdecomp, hall⟩ := find?_decomp hr
    have hrdw : r ∈ idx.dropWhile (fun kv => bytesLt kv.1 key) := by
      rw [hdecomp]
      exact List.mem_append.mpr (Or.inr (List.mem_cons_self _ _))
    have hkey_le_r : BytesLe key r.1 :=
      bytesLe_of_not_lt (sorted_dropWhile_not_lt hs key r hrdw)
    have hr_le_kv : BytesLe r.1 kv.1 := by
      have hdwsorted : KeysSorted (idx.dropWhile (fun kv => bytesLt kv.1 key)) :=
        List.Pairwise.sublist (List.dropWhile_sublist _) hs
      rw [hdecomp] at hdwsorted hm
      rcases List.mem_append.mp hm with h | h
      · rw [hall kv h] at hkvne
        exact absurd hkvne (by simp)
      · rcases List.mem_cons.mp h with h | h
        · exact h ▸ bytesLe_refl _
        · have h2 := (List.pairwise_append.mp hdwsorted).2.1
          exact (List.pairwise_cons.mp h2).1 kv h
    have hsq := (commonHexLen_squeeze hkey_le_r hr_le_kv).1
    have hfold : commonHexLen key r.1 + 1 ∈
        (((idx.takeWhile (fun kv => bytesLt kv.1 key)).getLast?).toList
          ++ (some r).toList).map (fun kv => commonHexLen key kv.1 + 1) := by
      simp
    rw [hr]
    have hle := le_foldr_max hfold
    omega

/-- The returned length is zero or is attained at a key of the index that
differs from the probe. -/
theorem suPL_attained {V : Type} (idx : List (ObjKey × V)) (key : ObjKey) :
    shortestUniquePrefixLen idx key = 0 ∨
      ∃ kv ∈ idx, kv.1 ≠ key ∧
        shortestUniquePrefixLen idx key = commonHexLen key kv.1 + 1 := by
  rw [suPL_neighbors]
  have hLmem : ∀ y, (idx.takeWhile (fun kv => bytesLt kv.1 key)).getLast? = some y →
      y ∈ idx ∧ y.1 ≠ key := by
    intro y hy
    have hymem : y ∈ idx.takeWhile (fun kv => bytesLt kv.1 key) :=
      List.mem_of_mem_getLast? (by rw [hy]; rfl)
    have hylt := List.mem_takeWhile_imp hymem
    refine ⟨(List.takeWhile_sublist _).subset hymem, ?_⟩
    intro heq
    rw [heq, bytesLt_irrefl] at hylt
    exact absurd hylt (by simp)
  have hRmem : ∀ r, (idx.dropWhile (fun kv => bytesLt kv.1 key)).find?
      (fun kv => kv.1 != key) = some r → r ∈ idx ∧ r.1 ≠ key := by
    intro r hr
    obtain ⟨l1, l2, hdecomp, _⟩ := find?_decomp hr
    have hrdw : r ∈ idx.dropWhile (fun kv => bytesLt kv.1 key) := by
      rw [hdecomp]
      exact List.mem_append.mpr (Or.inr (List.mem_cons_self _ _))
    refine ⟨(List.dropWhile_sublist _).subset hrdw, ?_⟩
    have := List.find?_some hr
    simpa using this
  cases hL : (idx.takeWhile (fun kv => bytesLt kv.1 key)).getLast? with
  | none =>
    cases hR : (idx.dropWhile (fun kv => bytesLt kv.1 key)).find? (fun kv => kv.1 != key) with
    | none => left; rfl
    | some r =>
      right
      obtain ⟨hmem, hne⟩ := hRmem r hR
      exact ⟨r, hmem, hne, by simp⟩
  | some y =>
    cases hR : (idx.dropWhile (fun kv => bytesLt kv.1 key)).find? (fun kv => kv.1 != key) with
    | none =>
      right
      obtain ⟨hmem, hne⟩ := hLmem y hL
      exact ⟨y, hmem, hne, by simp⟩
    | some r =>
      right
      obtain ⟨hmemy, hney⟩ := hLmem y hL
      obtain ⟨hmemr, hner⟩ := hRmem r hR
      simp only [Option.toList_some, List.cons_append, List.nil_append, List.map_cons,
        List.map_nil, List.foldr_cons, List.foldr_nil, List.singleton_append]
      rcases max_choice (commonHexLen key y.1 + 1) (max (commonHexLen key r.1 + 1) 0) with h | h
      · exact ⟨y, hmemy, hney, by rw [h]⟩
      · exact ⟨r, hmemr, hner, by rw [h]; omega⟩

/-! ### Claims C7 and C10 -/

/-- C7: on a sorted IdIndex, shortest_unique_prefix_len is the maximum of
common_hex_len + 1 over the left neighbour at the insertion point and the
first differing key to its right; it is 0 on the empty index; when the probe
is a strict prefix of a stored key it returns the hex length of the probe
plus one; and for any probe present in the index it is the least n such that
no other stored key shares its first n hex digits. -/
theorem claim_C7_shortest_unique_prefix_len {V : Type} :
    (∀ (idx : List (ObjKey × V)) (key : ObjKey),
      shortestUniquePrefixLen idx key =
        ((((idx.takeWhile (fun kv => bytesLt kv.1 key)).getLast?).toList
          ++ ((idx.dropWhile (fun kv => bytesLt kv.1 key)).find?
              (fun kv => kv.1 != key)).toList).map
            (fun kv => commonHexLen key kv.1 + 1)).foldr max 0) ∧
    (∀ key : ObjKey, shortestUniquePrefixLen ([] : List (ObjKey × V)) key = 0) ∧
    (∀ (idx : List (ObjKey × V)) (key : ObjKey), KeysSorted idx →
      (∃ kv ∈ idx, ∃ t, t ≠ [] ∧ kv.1 = key ++ t) →
      shortestUniquePrefixLen idx key = 2 * key.length + 1) ∧
    (∀ (idx : List (ObjKey × V)) (key : ObjKey), KeysSorted idx → key ∈ idx.map Prod.fst →
      (∀ kv ∈ idx, kv.1 ≠ key → commonHexLen key kv.1 < shortestUniquePrefixLen idx key) ∧
      (∀ n, (∀ kv ∈ idx, kv.1 ≠ key → commonHexLen key kv.1 < n) →
        shortestUniquePrefixLen idx key ≤ n)) := by
  refine ⟨suPL_neighbors, fun _ => rfl, ?_, ?_⟩
  · intro idx key hs ⟨kv, hkv, t, htne, hkvt⟩
    have hne : kv.1 ≠ key := by
      rw [hkvt]
      intro h
      have := congrArg List.length h
      rw [List.length_append] at this
      exact htne (List.eq_nil_of_length_eq_zero (by omega))
    have hlow := suPL_gt_common hs key kv hkv hne
    rw [hkvt, commonHexLen_append] at hlow
    rcases suPL_attained idx key with h0 | ⟨kv2, _, _, heq⟩
    · omega
    · have := commonHexLen_le_len key kv2.1
      omega
  · intro idx key hs _
    refine ⟨suPL_gt_common hs key, ?_⟩
    intro n hn
    rcases suPL_attained idx key with h0 | ⟨kv, hmem, hne, heq⟩
    · omega
    · have := hn kv hmem hne
      omega

theorem claim_C7_witness :
    (KeysSorted [([0xa0], 0), ([0xab], 1), ([0xac, 0xd0], 2), ([0xac, 0xf0], 3), ([0xba], 4)] ∧
      [0xac, 0xd0] ∈ [([0xa0], 0), ([0xab], 1), ([0xac, 0xd0], 2), ([0xac, 0xf0], 3),
        ([0xba], 4)].map Prod.fst) ∧
    ((∀ kv ∈ [([0xa0], 0), ([0xab], 1), ([0xac, 0xd0], 2), ([0xac, 0xf0], 3), ([0xba], 4)],
        kv.1 ≠ [0xac, 0xd0] →
        commonHexLen [0xac, 0xd0] kv.1 <
          shortestUniquePrefixLen [([0xa0], 0), ([0xab], 1), ([0xac, 0xd0], 2),
            ([0xac, 0xf0], 3), ([0xba], 4)] [0xac, 0xd0]) ∧
      (∀ n, (∀ kv ∈ [([0xa0], 0), ([0xab], 1), ([0xac, 0xd0], 2), ([0xac, 0xf0], 3),
          ([0xba], 4)], kv.1 ≠ [0xac, 0xd0] → commonHexLen [0xac, 0xd0] kv.1 < n) →
        shortestUniquePrefixLen [([0xa0], 0), ([0xab], 1), ([0xac, 0xd0], 2),
          ([0xac, 0xf0], 3), ([0xba], 4)] [0xac, 0xd0] ≤ n)) := by
  have hs : KeysSorted [([0xa0], 0), ([0xab], 1), ([0xac, 0xd0], 2), ([0xac, 0xf0], 3),
      ([0xba], 4)] := by decide
  have hm : [0xac, 0xd0] ∈ [([0xa0], 0), ([0xab], 1), ([0xac, 0xd0], 2), ([0xac, 0xf0], 3),
      ([0xba], 4)].map Prod.fst := by decide
  exact ⟨⟨hs, hm⟩, (claim_C7_shortest_unique_prefix_len (V := Nat)).2.2.2 _ _ hs hm⟩

/-- C10: when every stored key equals the probed key (for instance a single
key with duplicate entries) the index yields neither a smaller predecessor
nor a differing right neighbour, so shortest_unique_prefix_len returns 0,
the same value as on an empty index. -/
theorem claim_C10_all_keys_equal {V : Type} (idx : List (ObjKey × V)) (key : ObjKey)
    (hnil : idx ≠ []) (hall : ∀ kv ∈ idx, kv.1 = key) :
    shortestUniquePrefixLen idx key = 0 ∧
    shortestUniquePrefixLen ([] : List (ObjKey × V)) key = 0 := by
  refine ⟨?_, rfl⟩
  rw [suPL_neighbors]
  have htw : idx.takeWhile (fun kv => bytesLt kv.1 key) = [] := by
    cases idx with
    | nil => rfl
    | cons x xs =>
      rw [List.takeWhile_cons, if_neg ?_]
      rw [hall x (List.mem_cons_self x xs), bytesLt_irrefl]
      simp
  have hdw : idx.dropWhile (fun kv => bytesLt kv.1 key) = idx := by
    cases idx with
    | nil => rfl
    | cons x xs =>
      rw [List.dropWhile_cons, if_neg ?_]
      rw [hall x (List.mem_cons_self x xs), bytesLt_irrefl]
      simp
  have hfind : idx.find? (fun kv => kv.1 != key) = none :=
    List.find?_eq_none.mpr (fun kv hkv => by simp [hall kv hkv])
  rw [htw, hdw, hfind]
  rfl

theorem claim_C10_witness :
    (([([0xac, 0xd0], 1), ([0xac, 0xd0], 2)] : List (ObjKey × Nat)) ≠ [] ∧
      (∀ kv ∈ ([([0xac, 0xd0], 1), ([0xac, 0xd0], 2)] : List (ObjKey × Nat)),
        kv.1 = [0xac, 0xd0])) ∧
    (shortestUniquePrefixLen [([0xac, 0xd0], 1), ([0xac, 0xd0], 2)] [0xac, 0xd0] = 0 ∧
      shortestUniquePrefixLen ([] : List (ObjKey × Nat)) [0xac, 0xd0] = 0) := by
  have h1 : ([([0xac, 0xd0], 1), ([0xac, 0xd0], 2)] : List (ObjKey × Nat)) ≠ [] := by decide
  have h2 : ∀ kv ∈ ([([0xac, 0xd0], 1), ([0xac, 0xd0], 2)] : List (ObjKey × Nat)),
      kv.1 = [0xac, 0xd0] := by decide
  exact ⟨⟨h1, h2⟩, claim_C10_all_keys_equal _ _ h1 h2⟩

/-! ### Claim C8: prefix resolution -/

/-- The matching keys of a sorted index form a contiguous run starting at the
partition point, so the range scan is exactly a filter. -/
theorem takeWhile_matches_eq_filter {V : Type} {p : HexPfx} (hd : ∀ x ∈ p.digits, x < 16) :
    ∀ (l : List (ObjKey × V)), KeysSorted l →
    (∀ kv ∈ l, BytesLe (minPfxBytes p.digits) kv.1) →
    l.takeWhile (fun kv => hpMatches p kv.1) = l.filter (fun kv => hpMatches p kv.1) := by
  intro l
  induction l with
  | nil => intro _ _; rfl
  | cons x xs ih =>
    intro hs hmin
    obtain ⟨hx, hxs⟩ := List.pairwise_cons.mp hs
    rw [List.takeWhile_cons, List.filter_cons]
    by_cases h : hpMatches p x.1
    · rw [if_pos h, if_pos h]
      rw [ih hxs (fun kv hkv => hmin kv (List.mem_cons_of_mem _ hkv))]
    · rw [if_neg h, if_neg h]
      symm
      rw [List.filter_eq_nil_iff]
      intro y hy hmy
      exact h (matches_squeeze hd (hmin x (List.mem_cons_self x xs)) (hx y hy) hmy)

theorem range_eq_filter {V : Type} {idx : List (ObjKey × V)} {p : HexPfx}
    (hs : KeysSorted idx) (hd : ∀ x ∈ p.digits, x < 16) :
    resolvePfxRange idx p = idx.filter (fun kv => hpMatches p kv.1) := by
  simp only [resolvePfxRange, partitionPoint]
  rw [drop_takeWhile_length]
  conv_rhs =>
    rw [← List.takeWhile_append_dropWhile
      (fun kv => bytesLt kv.1 (minPfxBytes p.digits)) idx]
  rw [List.filter_append]
  have h1 : (idx.takeWhile (fun kv => bytesLt kv.1 (minPfxBytes p.digits))).filter
      (fun kv => hpMatches p kv.1) = [] := by
    rw [List.filter_eq_nil_iff]
    intro kv hkv
    have hlt := List.mem_takeWhile_imp
      (p := fun kv : ObjKey × V => bytesLt kv.1 (minPfxBytes p.digits)) hkv
    simp [not_matches_of_lt_min hd hlt]
  rw [h1, List.nil_append]
  refine takeWhile_matches_eq_filter hd _ ?_ ?_
  · exact List.Pairwise.sublist (List.dropWhile_sublist _) hs
  · intro kv hkv
    exact bytesLe_of_not_lt (sorted_dropWhile_not_lt hs (minPfxBytes p.digits) kv hkv)

/-- resolve_prefix_with computed on the set of matching keys. -/
theorem resolvePfxWith_eq_filter {V U : Type} {idx : List (ObjKey × V)} {p : HexPfx}
    (f : V → U) (hs : KeysSorted idx) (hd : ∀ x ∈ p.digits, x < 16) :
    resolvePfxWith idx p f =
      (match idx.filter (fun kv => hpMatches p kv.1) with
        | [] => PfxResolution.noMatch
        | (k0, v0) :: rest =>
          if ((k0, v0) :: rest).all (fun kv => kv.1 == k0) then
            PfxResolution.singleMatch (((k0, v0) :: rest).map (fun kv => f kv.2))
          else
            PfxResolution.ambiguousMatch) := by
  rw [resolvePfxWith, range_eq_filter hs hd]

/-- C8: on a sorted IdIndex, resolve_prefix_with returns NoMatch when no key
matches the prefix, SingleMatch of the mapped values of the matching run when
every matching key equals the first, and AmbiguousMatch otherwise; on the
test index with keys 0000, 0099, 0099, 0aaa, 0aab, prefix 0 is ambiguous,
000 resolves to the 0000 value, 009 to both 0099 values, 0aab to the 0aab
value, and f matches nothing. -/
theorem claim_C8_resolve_prefix_with :
    (∀ (V U : Type) (idx : List (ObjKey × V)) (p : HexPfx) (f : V → U), KeysSorted idx →
      (∀ x ∈ p.digits, x < 16) →
      ((idx.filter (fun kv => hpMatches p kv.1) = [] → resolvePfxWith idx p f = .noMatch) ∧
       (∀ k0 v0 rest, idx.filter (fun kv => hpMatches p kv.1) = (k0, v0) :: rest →
          (∀ kv ∈ idx.filter (fun kv => hpMatches p kv.1), kv.1 = k0) →
          resolvePfxWith idx p f =
            .singleMatch ((idx.filter (fun kv => hpMatches p kv.1)).map (fun kv => f kv.2))) ∧
       (∀ k0 v0 rest, idx.filter (fun kv => hpMatches p kv.1) = (k0, v0) :: rest →
          ¬(∀ kv ∈ idx.filter (fun kv => hpMatches p kv.1), kv.1 = k0) →
          resolvePfxWith idx p f = .ambiguousMatch))) ∧
    (resolvePfxWith c8idx ⟨[0]⟩ (id : Nat → Nat) = .ambiguousMatch ∧
     resolvePfxWith c8idx ⟨[0, 0, 0]⟩ (id : Nat → Nat) = .singleMatch [0] ∧
     resolvePfxWith c8idx ⟨[0, 0, 9]⟩ (id : Nat → Nat) = .singleMatch [1, 2] ∧
     resolvePfxWith c8idx ⟨[0, 10, 10, 11]⟩ (id : Nat → Nat) = .singleMatch [4] ∧
     resolvePfxWith c8idx ⟨[15]⟩ (id : Nat → Nat) = .noMatch) := by
  constructor
  · intro V U idx p f hs hd
    have heq := resolvePfxWith_eq_filter f hs hd
    refine ⟨?_, ?_, ?_⟩
    · intro hM
      rw [heq, hM]
    · intro k0 v0 rest hM hall
      rw [heq, hM]
      have hcond : (((k0, v0) :: rest).all fun kv => kv.1 == k0) = true := by
        rw [List.all_eq_true]
        intro kv hkv
        have := hall kv (hM ▸ hkv)
        simp [this]
      split
      · rename_i h
        simp at h
      · rename_i k1 v1 rest1 h
        injection h with h1 h2
        injection h1 with hk hv
        subst hk
        subst hv
        subst h2
        rw [if_pos hcond]
    · intro k0 v0 rest hM hnall
      rw [heq, hM]
      split
      · rename_i h
        simp at h
      · rename_i k1 v1 rest1 h
        injection h with h1 h2
        injection h1 with hk hv
        subst hk
        subst hv
        subst h2
        cases hcond : (((k0, v0) :: rest).all fun kv => kv.1 == k0) with
        | false => rw [if_neg (by simp [hcond])]
        | true =>
          exfalso
          apply hnall
          intro kv hkv
          rw [hM] at hkv
          have := List.all_eq_true.mp hcond kv hkv
          simpa using this
  · refine ⟨by decide, by decide, by decide, by decide, by decide⟩

theorem claim_C8_witness :
    (KeysSorted c8idx ∧ (∀ x ∈ ([15] : List Nat), x < 16) ∧
      c8idx.filter (fun kv => hpMatches ⟨[15]⟩ kv.1) = []) ∧
    resolvePfxWith c8idx ⟨[15]⟩ (id : Nat → Nat) = .noMatch := by
  have h1 : KeysSorted c8idx := by decide
  have h2 : ∀ x ∈ ([15] : List Nat), x < 16 := by decide
  have h3 : c8idx.filter (fun kv => hpMatches ⟨[15]⟩ kv.1) = [] := by decide
  exact ⟨⟨h1, h2, h3⟩,
    (claim_C8_resolve_prefix_with.1 Nat Nat c8idx ⟨[15]⟩ id h1 h2).1 h3⟩

/-! ### Claim C3: Roots -/

/-- C3: for a candidate set S in the evaluation order, Roots(S) iterates, in
descending position order, exactly those entries of S none of whose parent
positions lies in the reachable-position set computed by
collect_dag_range(S, S); and the Roots branch of evaluate produces exactly
this set from the evaluated candidates. -/
theorem claim_C3_roots_semantics (g : Graph) (S : List IndexEntry) (hs : StrictDesc S) :
    (∀ x : IndexEntry, x ∈ iterOp (rootsRevset g S) ↔
      x ∈ S ∧ ∀ pp ∈ x.parents, pp ∉ (collectDagRange g S S).2) ∧
    StrictDesc (iterOp (rootsRevset g S)) ∧
    (∀ (expr : ResolvedExpression) (op : Op), evaluate g expr = .ok op →
      evaluate g (.roots expr) = .ok (rootsRevset g (iterOp op))) := by
  refine ⟨?_, ?_, ?_⟩
  · intro x
    simp only [rootsRevset, iterOp, List.mem_filter]
    constructor
    · rintro ⟨h1, h2⟩
      refine ⟨h1, fun pp hpp hmem => ?_⟩
      rw [Bool.not_eq_true'] at h2
      have := List.any_eq_false.mp h2 pp hpp
      simp only [List.elem_iff] at this
      exact this (by simpa using hmem)
    · rintro ⟨h1, h2⟩
      refine ⟨h1, ?_⟩
      rw [Bool.not_eq_true']
      rw [List.any_eq_false]
      intro pp hpp
      simp only [List.elem_iff]
      simpa using h2 pp hpp
  · simp only [rootsRevset, iterOp]
    exact List.Pairwise.sublist (List.filter_sublist _) hs
  · intro expr op hok
    simp only [evaluate]
    rw [hok]
    rfl

theorem claim_C3_witness :
    StrictDesc [mkEntry ⟨5, fun p => if p = 0 then [] else [p - 1], fun _ => 0⟩ 3,
      mkEntry ⟨5, fun p => if p = 0 then [] else [p - 1], fun _ => 0⟩ 2,
      mkEntry ⟨5, fun p => if p = 0 then [] else [p - 1], fun _ => 0⟩ 1] ∧
    (mkEntry ⟨5, fun p => if p = 0 then [] else [p - 1], fun _ => 0⟩ 1 ∈
        iterOp (rootsRevset ⟨5, fun p => if p = 0 then [] else [p - 1], fun _ => 0⟩
          [mkEntry ⟨5, fun p => if p = 0 then [] else [p - 1], fun _ => 0⟩ 3,
           mkEntry ⟨5, fun p => if p = 0 then [] else [p - 1], fun _ => 0⟩ 2,
           mkEntry ⟨5, fun p => if p = 0 then [] else [p - 1], fun _ => 0⟩ 1]) ↔
      mkEntry ⟨5, fun p => if p = 0 then [] else [p - 1], fun _ => 0⟩ 1 ∈
        [mkEntry ⟨5, fun p => if p = 0 then [] else [p - 1], fun _ => 0⟩ 3,
         mkEntry ⟨5, fun p => if p = 0 then [] else [p - 1], fun _ => 0⟩ 2,
         mkEntry ⟨5, fun p => if p = 0 then [] else [p - 1], fun _ => 0⟩ 1] ∧
      ∀ pp ∈ (mkEntry ⟨5, fun p => if p = 0 then [] else [p - 1], fun _ => 0⟩ 1).parents,
        pp ∉ (collectDagRange ⟨5, fun p => if p = 0 then [] else [p - 1], fun _ => 0⟩
          [mkEntry ⟨5, fun p => if p = 0 then [] else [p - 1], fun _ => 0⟩ 3,
           mkEntry ⟨5, fun p => if p = 0 then [] else [p - 1], fun _ => 0⟩ 2,
           mkEntry ⟨5, fun p => if p = 0 then [] else [p - 1], fun _ => 0⟩ 1]
          [mkEntry ⟨5, fun p => if p = 0 then [] else [p - 1], fun _ => 0⟩ 3,
           mkEntry ⟨5, fun p => if p = 0 then [] else [p - 1], fun _ => 0⟩ 2,
           mkEntry ⟨5, fun p => if p = 0 then [] else [p - 1], fun _ => 0⟩ 1]).2) := by
  have hs : StrictDesc [mkEntry ⟨5, fun p => if p = 0 then [] else [p - 1], fun _ => 0⟩ 3,
      mkEntry ⟨5, fun p => if p = 0 then [] else [p - 1], fun _ => 0⟩ 2,
      mkEntry ⟨5, fun p => if p = 0 then [] else [p - 1], fun _ => 0⟩ 1] := by
    constructor
    · intro y hy
      rcases List.mem_cons.mp hy with h | h
      · rw [h]; decide
      · rcases List.mem_cons.mp h with h | h
        · rw [h]; decide
        · simp at h
    · constructor
      · intro y hy
        rcases List.mem_cons.mp hy with h | h
        · rw [h]; decide
        · simp at h
      · exact List.pairwise_singleton _ _
  exact ⟨hs, (claim_C3_roots_semantics _ _ hs).1 _⟩

/-! ### Claim C6: generation lower bound overflow -/

/-- C6: converting the u64 generation range fails with the
GenerationLowerBoundOverflow error exactly when the lower bound does not fit
in 32 bits, while the upper bound saturates to u32::MAX and never fails; for
Ancestors, Range and DagRange expressions with a non-full generation range
whose sub-expressions evaluate successfully, evaluate surfaces exactly this
error when the lower bound overflows and succeeds otherwise. -/
theorem claim_C6_generation_lower_bound_overflow :
    (∀ r : Range64,
      (r.start < 2 ^ 32 →
        toU32GenerationRange r = .ok ⟨r.start, min r.stop (2 ^ 32 - 1)⟩) ∧
      (2 ^ 32 ≤ r.start → toU32GenerationRange r =
        .error (.other ("Lower bound of generation (" ++ toString r.start
          ++ ") is too large")))) ∧
    (∀ (g : Graph) (hds : ResolvedExpression) (gen : Range64) (hOp : Op),
      gen ≠ GENERATION_RANGE_FULL → evaluate g hds = .ok hOp →
      (2 ^ 32 ≤ gen.start → evaluate g (.ancestors hds gen) =
        .error (.other ("Lower bound of generation (" ++ toString gen.start
          ++ ") is too large"))) ∧
      (gen.start < 2 ^ 32 → ∃ op, evaluate g (.ancestors hds gen) = .ok op)) ∧
    (∀ (g : Graph) (rts hds : ResolvedExpression) (gen : Range64) (rOp hOp : Op),
      gen ≠ GENERATION_RANGE_FULL → evaluate g rts = .ok rOp → evaluate g hds = .ok hOp →
      (2 ^ 32 ≤ gen.start → evaluate g (.range rts hds gen) =
        .error (.other ("Lower bound of generation (" ++ toString gen.start
          ++ ") is too large"))) ∧
      (gen.start < 2 ^ 32 → ∃ op, evaluate g (.range rts hds gen) = .ok op)) ∧
    (∀ (g : Graph) (rts hds : ResolvedExpression) (gen : Range64) (rOp hOp : Op),
      gen ≠ GENERATION_RANGE_FULL → evaluate g rts = .ok rOp → evaluate g hds = .ok hOp →
      (2 ^ 32 ≤ gen.start → evaluate g (.dagRange rts hds gen) =
        .error (.other ("Lower bound of generation (" ++ toString gen.start
          ++ ") is too large"))) ∧
      (gen.start < 2 ^ 32 → ∃ op, evaluate g (.dagRange rts hds gen) = .ok op)) := by
  refine ⟨?_, ?_, ?_, ?_⟩
  · intro r
    constructor
    · intro hlt
      simp only [toU32GenerationRange]
      rw [if_pos hlt]
    · intro hge
      simp only [toU32GenerationRange]
      rw [if_neg (by omega)]
  · intro g hds gen hOp hne hok
    have hred : evaluate g (.ancestors hds gen) =
        (if gen = GENERATION_RANGE_FULL then
          pure (.walk (walkRevs g ((iterOp hOp).map (fun e => e.cid)) []))
        else do
          let gr ← toU32GenerationRange gen
          pure (.walk (filterByGeneration ((iterOp hOp).map (fun e => e.cid))
            (walkRevs g ((iterOp hOp).map (fun e => e.cid)) []) gr))) := by
      simp only [evaluate]
      rw [hok]
      rfl
    constructor
    · intro hge
      have ht : toU32GenerationRange gen =
          .error (.other ("Lower bound of generation (" ++ toString gen.start
            ++ ") is too large")) := by
        simp only [toU32GenerationRange]
        rw [if_neg (by omega)]
      rw [hred, if_neg hne, ht]
      all_goals rfl
    · intro hlt
      have ht : toU32GenerationRange gen = .ok ⟨gen.start, min gen.stop (2 ^ 32 - 1)⟩ := by
        simp only [toU32GenerationRange]
        rw [if_pos hlt]
      have hgoal : evaluate g (.ancestors hds gen) = .ok (.walk (filterByGeneration
          ((iterOp hOp).map (fun e => e.cid))
          (walkRevs g ((iterOp hOp).map (fun e => e.cid)) [])
          ⟨gen.start, min gen.stop (2 ^ 32 - 1)⟩)) := by
        rw [hred, if_neg hne, ht]
        all_goals rfl
      exact ⟨_, hgoal⟩
  · intro g rts hds gen rOp hOp hne hokr hokh
    have hred : evaluate g (.range rts hds gen) =
        (if gen = GENERATION_RANGE_FULL then
          pure (.walk (walkRevs g ((iterOp hOp).map (fun e => e.cid))
            ((iterOp rOp).map (fun e => e.cid))))
        else do
          let gr ← toU32GenerationRange gen
          pure (.walk (filterByGeneration ((iterOp hOp).map (fun e => e.cid))
            (walkRevs g ((iterOp hOp).map (fun e => e.cid))
              ((iterOp rOp).map (fun e => e.cid))) gr))) := by
      simp only [evaluate]
      rw [hokr, hokh]
      rfl
    constructor
    · intro hge
      have ht : toU32GenerationRange gen =
          .error (.other ("Lower bound of generation (" ++ toString gen.start
            ++ ") is too large")) := by
        simp only [toU32GenerationRange]
        rw [if_neg (by omega)]
      rw [hred, if_neg hne, ht]
      all_goals rfl
    · intro hlt
      have ht : toU32GenerationRange gen = .ok ⟨gen.start, min gen.stop (2 ^ 32 - 1)⟩ := by
        simp only [toU32GenerationRange]
        rw [if_pos hlt]
      have hgoal : evaluate g (.range rts hds gen) = .ok (.walk (filterByGeneration
          ((iterOp hOp).map (fun e => e.cid))
          (walkRevs g ((iterOp hOp).map (fun e => e.cid))
            ((iterOp rOp).map (fun e => e.cid)))
          ⟨gen.start, min gen.stop (2 ^ 32 - 1)⟩)) := by
        rw [hred, if_neg hne, ht]
        all_goals rfl
      exact ⟨_, hgoal⟩
  · intro g rts hds gen rOp hOp hne hokr hokh
    have hred : evaluate g (.dagRange rts hds gen) =
        (if gen = (⟨1, 2⟩ : Range64) then
          pure (walkChildren g (iterOp rOp) (iterOp hOp))
        else if gen = GENERATION_RANGE_FULL then
          pure (.eager (collectDagRange g (iterOp rOp) (iterOp hOp)).1)
        else do
          let gr ← toU32GenerationRange gen
          let walk := descendantsFilteredByGeneration ((iterOp rOp).map (fun e => e.pos))
            (walkRevs g ((iterOp hOp).map (fun e => e.cid)) []) gr
          pure (.eager walk.reverse)) := by
      simp only [evaluate]
      rw [hokr, hokh]
      rfl
    constructor
    · intro hge
      have h12 : gen ≠ (⟨1, 2⟩ : Range64) := by
        intro h
        rw [h] at hge
        simp at hge
      have ht : toU32GenerationRange gen =
          .error (.other ("Lower bound of generation (" ++ toString gen.start
            ++ ") is too large")) := by
        simp only [toU32GenerationRange]
        rw [if_neg (by omega)]
      rw [hred, if_neg h12, if_neg hne, ht]
      all_goals rfl
    · intro hlt
      by_cases h12 : gen = (⟨1, 2⟩ : Range64)
      · have hgoal : evaluate g (.dagRange rts hds gen)
            = .ok (walkChildren g (iterOp rOp) (iterOp hOp)) := by
          rw [hred, if_pos h12]
          all_goals rfl
        exact ⟨_, hgoal⟩
      · have ht : toU32GenerationRange gen = .ok ⟨gen.start, min gen.stop (2 ^ 32 - 1)⟩ := by
          simp only [toU32GenerationRange]
          rw [if_pos hlt]
        have hgoal : evaluate g (.dagRange rts hds gen)
            = .ok (.eager (descendantsFilteredByGeneration
                ((iterOp rOp).map (fun e => e.pos))
                (walkRevs g ((iterOp hOp).map (fun e => e.cid)) [])
                ⟨gen.start, min gen.stop (2 ^ 32 - 1)⟩).reverse) := by
          rw [hred, if_neg h12, if_neg hne, ht]
          all_goals rfl
        exact ⟨_, hgoal⟩

theorem claim_C6_witness :
    ((⟨2 ^ 33, 2 ^ 34⟩ : Range64) ≠ GENERATION_RANGE_FULL ∧
      evaluate ⟨5, fun p => if p = 0 then [] else [p - 1], fun _ => 0⟩ (.commits [3])
        = .ok (revsetForCommitIds ⟨5, fun p => if p = 0 then [] else [p - 1], fun _ => 0⟩ [3]) ∧
      2 ^ 32 ≤ (⟨2 ^ 33, 2 ^ 34⟩ : Range64).start) ∧
    evaluate ⟨5, fun p => if p = 0 then [] else [p - 1], fun _ => 0⟩
        (.ancestors (.commits [3]) ⟨2 ^ 33, 2 ^ 34⟩)
      = .error (.other ("Lower bound of generation ("
          ++ toString (⟨2 ^ 33, 2 ^ 34⟩ : Range64).start ++ ") is too large")) := by
  have h1 : (⟨2 ^ 33, 2 ^ 34⟩ : Range64) ≠ GENERATION_RANGE_FULL := by
    intro h
    have := congrArg Range64.start h
    simp [GENERATION_RANGE_FULL] at this
  have h2 : evaluate ⟨5, fun p => if p = 0 then [] else [p - 1], fun _ => 0⟩ (.commits [3])
      = .ok (revsetForCommitIds ⟨5, fun p => if p = 0 then [] else [p - 1], fun _ => 0⟩ [3]) := by
    simp only [evaluate]
  have h3 : 2 ^ 32 ≤ (⟨2 ^ 33, 2 ^ 34⟩ : Range64).start := by norm_num
  exact ⟨⟨h1, h2, h3⟩,
    ((claim_C6_generation_lower_bound_overflow.2.1 _ _ _ _ h1 h2).1 h3)⟩

theorem itemLtB_iff {a b : IndexEntry} : itemLtB a b = true ↔ ItemLt a b := by
  simp [itemLtB, ItemLt]

theorem ItemLt_irrefl (a : IndexEntry) : ¬ItemLt a a := by
  simp only [ItemLt]; omega

theorem ItemLt_trans {a b c : IndexEntry} (h1 : ItemLt a b) (h2 : ItemLt b c) :
    ItemLt a c := by
  simp only [ItemLt] at h1 h2 ⊢; omega

theorem ItemLt_flip {a b : IndexEntry} (h : ¬ItemLt a b) (hp : a.pos ≠ b.pos) :
    ItemLt b a := by
  simp only [ItemLt] at h ⊢; omega

theorem heapMin_foldl (xs : List IndexEntry) : ∀ acc : IndexEntry,
    (xs.foldl (fun m y => if itemLtB y m then y else m) acc) ∈ acc :: xs ∧
    ∀ x ∈ acc :: xs, ¬ItemLt x (xs.foldl (fun m y => if itemLtB y m then y else m) acc) := by
  induction xs with
  | nil =>
    intro acc
    simp only [List.foldl_nil]
    refine ⟨List.mem_cons_self acc [], ?_⟩
    intro x hx
    rcases List.mem_cons.mp hx with h | h
    · subst h; exact ItemLt_irrefl x
    · exact absurd h (List.not_mem_nil x)
  | cons y ys ih =>
    intro acc
    simp only [List.foldl_cons]
    obtain ⟨hmem, hmin⟩ := ih (if itemLtB y acc then y else acc)
    by_cases h : itemLtB y acc = true
    · rw [if_pos h] at hmem hmin ⊢
      refine ⟨List.mem_cons_of_mem acc hmem, ?_⟩
      intro x hx
      rcases List.mem_cons.mp hx with h1 | h1
      · subst h1
        intro hlt
        exact hmin y (List.mem_cons_self y ys) (ItemLt_trans (itemLtB_iff.mp h) hlt)
      · exact hmin x h1
    · rw [if_neg h] at hmem hmin ⊢
      refine ⟨?_, ?_⟩
      · rcases List.mem_cons.mp hmem with h1 | h1
        · rw [h1]; exact List.mem_cons_self acc (y :: ys)
        · exact List.mem_cons_of_mem acc (List.mem_cons_of_mem y h1)
      · intro x hx
        rcases List.mem_cons.mp hx with h1 | h1
        · rw [h1]; exact hmin acc (List.mem_cons_self acc ys)
        · rcases List.mem_cons.mp h1 with h2 | h2
          · subst h2
            intro hlt
            have hy : ¬ItemLt x acc := fun hl => h (itemLtB_iff.mpr hl)
            refine hmin acc (List.mem_cons_self acc ys) ?_
            simp only [ItemLt] at hy hlt ⊢; omega
          · exact hmin x (List.mem_cons_of_mem acc h2)

theorem heapMin_spec {l : List IndexEntry} {m : IndexEntry} (h : heapMin l = some m) :
    m ∈ l ∧ ∀ x ∈ l, ¬ItemLt x m := by
  cases l with
  | nil => exact absurd h (by simp [heapMin])
  | cons x xs =>
    simp only [heapMin, Option.some.injEq] at h
    subst h
    exact heapMin_foldl xs x

theorem heapStep_inv (seen heap : List IndexEntry) (x : IndexEntry) (count : Nat)
    (h6 : PosNodup (seen ++ [x]))
    (h1 : ∀ z ∈ heap, z ∈ seen) (h2 : heap.Nodup) (h3 : heap.length = count)
    (h4 : 0 < count)
    (h5 : ∀ y ∈ seen, y ∉ heap → ∀ z ∈ heap, ItemLt y z) :
    (∀ z ∈ heapStep heap x, z ∈ seen ++ [x]) ∧
    (heapStep heap x).Nodup ∧ (heapStep heap x).length = count ∧
    (∀ y ∈ seen ++ [x], y ∉ heapStep heap x → ∀ z ∈ heapStep heap x, ItemLt y z) := by
  have hne : heap ≠ [] := by
    intro he; rw [he] at h3; simp at h3; omega
  obtain ⟨m, hm⟩ : ∃ m, heapMin heap = some m := by
    cases heap with
    | nil => exact absurd rfl hne
    | cons a as => exact ⟨_, rfl⟩
  obtain ⟨hmmem, hmmin⟩ := heapMin_spec hm
  have hseennd : PosNodup seen := (List.pairwise_append.mp h6).1
  have hcross : ∀ a ∈ seen, a.pos ≠ x.pos := by
    intro a ha
    exact (List.pairwise_append.mp h6).2.2 a ha x (List.mem_singleton.mpr rfl)
  have hxseen : x ∉ seen := fun hx => (hcross x hx) rfl
  have hxheap : x ∉ heap := fun hxh => hxseen (h1 x hxh)
  have hsym : Symmetric (fun a b : IndexEntry => a.pos ≠ b.pos) :=
    fun _ _ h he => h he.symm
  have hpos := List.Pairwise.forall hsym hseennd
  have htri : ∀ z ∈ heap, z ≠ m → ItemLt m z := by
    intro z hz hzm
    exact ItemLt_flip (hmmin z hz) (hpos (h1 z hz) (h1 m hmmem) hzm)
  simp only [heapStep, hm]
  by_cases hlt : itemLtB m x = true
  · rw [if_pos hlt]
    have hmx : ItemLt m x := itemLtB_iff.mp hlt
    refine ⟨?_, ?_, ?_, ?_⟩
    · intro z hz
      rcases List.mem_cons.mp hz with h | h
      · subst h; exact List.mem_append_right seen (List.mem_singleton.mpr rfl)
      · exact List.mem_append_left _ (h1 z (List.mem_of_mem_erase h))
    · exact List.nodup_cons.mpr
        ⟨fun hx2 => hxheap (List.mem_of_mem_erase hx2), h2.erase m⟩
    · rw [List.length_cons, List.length_erase_of_mem hmmem, h3]
      omega
    · intro y hy hynin z hz
      rcases List.mem_append.mp hy with hys | hyx
      · by_cases hym : y = m
        · subst hym
          rcases List.mem_cons.mp hz with h | h
          · subst h; exact hmx
          · exact htri z (List.mem_of_mem_erase h) ((h2.mem_erase_iff).mp h).1
        · have hyheap : y ∉ heap := by
            intro hyh
            exact hynin (List.mem_cons_of_mem x ((h2.mem_erase_iff).mpr ⟨hym, hyh⟩))
          have hold := h5 y hys hyheap
          rcases List.mem_cons.mp hz with h | h
          · subst h; exact ItemLt_trans (hold m hmmem) hmx
          · exact hold z (List.mem_of_mem_erase h)
      · exfalso
        exact hynin (by rw [List.mem_singleton.mp hyx]; exact List.mem_cons_self _ _)
  · rw [if_neg hlt]
    have hxm : ItemLt x m :=
      ItemLt_flip (fun hl => hlt (itemLtB_iff.mpr hl)) (hcross m (h1 m hmmem))
    refine ⟨fun z hz => List.mem_append_left _ (h1 z hz), h2, h3, ?_⟩
    intro y hy hynin z hz
    rcases List.mem_append.mp hy with hys | hyx
    · exact h5 y hys hynin z hz
    · rw [List.mem_singleton.mp hyx]
      by_cases hzm : z = m
      · rw [hzm]; exact hxm
      · exact ItemLt_trans hxm (htri z hz hzm)

theorem heap_fold_inv (rest : List IndexEntry) :
    ∀ (seen heap : List IndexEntry) (count : Nat),
    PosNodup (seen ++ rest) →
    (∀ z ∈ heap, z ∈ seen) → heap.Nodup → heap.length = count → 0 < count →
    (∀ y ∈ seen, y ∉ heap → ∀ z ∈ heap, ItemLt y z) →
    (∀ z ∈ rest.foldl heapStep heap, z ∈ seen ++ rest) ∧
    (rest.foldl heapStep heap).Nodup ∧
    (rest.foldl heapStep heap).length = count ∧
    (∀ y ∈ seen ++ rest, y ∉ rest.foldl heapStep heap →
      ∀ z ∈ rest.foldl heapStep heap, ItemLt y z) := by
  induction rest with
  | nil =>
    intro seen heap count h6 h1 h2 h3 h4 h5
    simp only [List.foldl_nil, List.append_nil]
    exact ⟨h1, h2, h3, h5⟩
  | cons x rest ih =>
    intro seen heap count h6 h1 h2 h3 h4 h5
    simp only [List.foldl_cons]
    have h6x : PosNodup (seen ++ [x]) := by
      refine List.Pairwise.sublist ?_ h6
      exact (List.append_sublist_append_left seen).mpr
        (List.cons_sublist_cons.mpr (List.nil_sublist rest))
    obtain ⟨c1, c2, c3, c5⟩ := heapStep_inv seen heap x count h6x h1 h2 h3 h4 h5
    have happ : seen ++ x :: rest = (seen ++ [x]) ++ rest := by simp
    rw [happ] at h6 ⊢
    exact ih (seen ++ [x]) (heapStep heap x) count h6 c1 c2 c3 h4 c5

theorem insertPosDesc_perm (x : IndexEntry) (l : List IndexEntry) :
    List.Perm (insertPosDesc x l) (x :: l) := by
  induction l with
  | nil => exact List.Perm.refl _
  | cons y ys ih =>
    simp only [insertPosDesc]
    by_cases h : x.pos ≤ y.pos
    · rw [if_pos h]
      exact (ih.cons y).trans (List.Perm.swap x y ys)
    · rw [if_neg h]

theorem sortByPosDesc_perm (l : List IndexEntry) : List.Perm (sortByPosDesc l) l := by
  induction l with
  | nil => exact List.Perm.refl _
  | cons x xs ih =>
    simp only [sortByPosDesc, List.foldr_cons] at ih ⊢
    exact (insertPosDesc_perm x _).trans (ih.cons x)

theorem insertPosDesc_sorted (x : IndexEntry) (l : List IndexEntry)
    (h : l.Pairwise (fun a b => b.pos ≤ a.pos)) :
    (insertPosDesc x l).Pairwise (fun a b => b.pos ≤ a.pos) := by
  induction l with
  | nil => simp [insertPosDesc]
  | cons y ys ih =>
    simp only [insertPosDesc]
    obtain ⟨hy, hys⟩ := List.pairwise_cons.mp h
    by_cases hc : x.pos ≤ y.pos
    · rw [if_pos hc]
      refine List.pairwise_cons.mpr ⟨?_, ih hys⟩
      intro b hb
      rcases List.mem_cons.mp ((insertPosDesc_perm x ys).mem_iff.mp hb) with hb1 | hb1
      · rw [hb1]; exact hc
      · exact hy b hb1
    · rw [if_neg hc]
      refine List.pairwise_cons.mpr ⟨?_, h⟩
      intro b hb
      rcases List.mem_cons.mp hb with hb1 | hb1
      · rw [hb1]; omega
      · have := hy b hb1; omega

theorem sortByPosDesc_sorted (l : List IndexEntry) :
    (sortByPosDesc l).Pairwise (fun a b => b.pos ≤ a.pos) := by
  induction l with
  | nil => simp [sortByPosDesc]
  | cons x xs ih =>
    simp only [sortByPosDesc, List.foldr_cons] at ih ⊢
    exact insertPosDesc_sorted x _ ih

theorem pairwise_of_nodup_mem {R : IndexEntry → IndexEntry → Prop} :
    ∀ {l : List IndexEntry}, l.Nodup → (∀ a ∈ l, ∀ b ∈ l, a ≠ b → R a b) →
    l.Pairwise R := by
  intro l
  induction l with
  | nil => intro _ _; exact List.Pairwise.nil
  | cons x xs ih =>
    intro hnd h
    obtain ⟨hx, hxs⟩ := List.nodup_cons.mp hnd
    refine List.pairwise_cons.mpr ⟨?_, ih hxs ?_⟩
    · intro b hb
      refine h x (List.mem_cons_self x xs) b (List.mem_cons_of_mem x hb) ?_
      intro he
      exact hx (by rw [he]; exact hb)
    · intro a ha b hb hab
      exact h a (List.mem_cons_of_mem x ha) b (List.mem_cons_of_mem x hb) hab

theorem posNodup_of_strictDesc {l : List IndexEntry} (h : StrictDesc l) :
    PosNodup l :=
  h.imp (fun hlt => by omega)

theorem nodup_of_posNodup {l : List IndexEntry} (h : PosNodup l) : l.Nodup :=
  h.imp (fun hne he => hne (congrArg IndexEntry.pos he))

theorem strictDesc_of_sorted_posNodup {l : List IndexEntry}
    (h1 : l.Pairwise (fun a b => b.pos ≤ a.pos)) (h2 : PosNodup l) : StrictDesc l :=
  (h1.and h2).imp (fun hab => by obtain ⟨hle, hne⟩ := hab; omega)

/-- C4: for every strictly descending candidate list and every count,
take_latest_revset returns the empty set for count 0, and otherwise a list of
size min(count, number of candidates) of candidates, in strictly descending
position order, such that every candidate left out is strictly below every
selected entry in the (timestamp, position) order — i.e. the selected entries
are the count candidates with the greatest committer timestamps, ties broken
by greater index position. -/
theorem claim_C4_take_latest (candidates : List IndexEntry) (count : Nat)
    (hs : StrictDesc candidates) :
    takeLatestRevset candidates 0 = [] ∧
    (takeLatestRevset candidates count).length = min count candidates.length ∧
    (∀ x ∈ takeLatestRevset candidates count, x ∈ candidates) ∧
    StrictDesc (takeLatestRevset candidates count) ∧
    (∀ x ∈ takeLatestRevset candidates count, ∀ y ∈ candidates,
      y ∉ takeLatestRevset candidates count →
      y.ts < x.ts ∨ (y.ts = x.ts ∧ y.pos < x.pos)) := by
  have hpnd : PosNodup candidates := posNodup_of_strictDesc hs
  have hnd : candidates.Nodup := nodup_of_posNodup hpnd
  have hzero : takeLatestRevset candidates 0 = [] := by simp [takeLatestRevset]
  by_cases hc : count = 0
  · subst hc
    refine ⟨hzero, ?_, ?_, ?_, ?_⟩
    · rw [hzero]; simp
    · intro x hx; rw [hzero] at hx; exact absurd hx (List.not_mem_nil x)
    · rw [hzero]; exact List.Pairwise.nil
    · intro x hx; rw [hzero] at hx; exact absurd hx (List.not_mem_nil x)
  · have hrw : takeLatestRevset candidates count
        = sortByPosDesc ((candidates.drop count).foldl heapStep (candidates.take count)) := by
      rw [takeLatestRevset, if_neg hc]
    obtain ⟨c1, c2, c3, c5⟩ :
        (∀ z ∈ (candidates.drop count).foldl heapStep (candidates.take count),
          z ∈ candidates) ∧
        ((candidates.drop count).foldl heapStep (candidates.take count)).Nodup ∧
        ((candidates.drop count).foldl heapStep (candidates.take count)).length
          = min count candidates.length ∧
        (∀ y ∈ candidates,
          y ∉ (candidates.drop count).foldl heapStep (candidates.take count) →
          ∀ z ∈ (candidates.drop count).foldl heapStep (candidates.take count),
            ItemLt y z) := by
      by_cases hlen : candidates.length ≤ count
      · rw [List.drop_eq_nil_of_le hlen, List.take_of_length_le hlen]
        simp only [List.foldl_nil]
        refine ⟨fun z hz => hz, hnd, ?_, ?_⟩
        · omega
        · intro y hy hynin z hz; exact absurd hy hynin
      · push_neg at hlen
        have h6 : PosNodup (candidates.take count ++ candidates.drop count) := by
          rw [List.take_append_drop]; exact hpnd
        have h2 : (candidates.take count).Nodup :=
          List.Nodup.sublist (List.take_sublist count candidates) hnd
        have h3 : (candidates.take count).length = count := by
          rw [List.length_take]; omega
        have h5 : ∀ y ∈ candidates.take count, y ∉ candidates.take count →
            ∀ z ∈ candidates.take count, ItemLt y z :=
          fun y hy hyn => absurd hy hyn
        obtain ⟨d1, d2, d3, d5⟩ := heap_fold_inv (candidates.drop count)
          (candidates.take count) (candidates.take count) count h6 (fun z hz => hz)
          h2 h3 (Nat.pos_of_ne_zero hc) h5
        rw [List.take_append_drop] at d1 d5
        refine ⟨d1, d2, ?_, d5⟩
        rw [d3]; omega
    have hperm : List.Perm (takeLatestRevset candidates count)
        ((candidates.drop count).foldl heapStep (candidates.take count)) := by
      rw [hrw]; exact sortByPosDesc_perm _
    refine ⟨hzero, ?_, ?_, ?_, ?_⟩
    · rw [hperm.length_eq]; exact c3
    · intro x hx; exact c1 x (hperm.mem_iff.mp hx)
    · have hsorted : (takeLatestRevset candidates count).Pairwise
          (fun a b => b.pos ≤ a.pos) := by
        rw [hrw]; exact sortByPosDesc_sorted _
      have hpnd2 : PosNodup (takeLatestRevset candidates count) := by
        have hfold : PosNodup
            ((candidates.drop count).foldl heapStep (candidates.take count)) := by
          refine pairwise_of_nodup_mem c2 ?_
          intro a ha b hb hab
          exact List.Pairwise.forall (R := fun a b : IndexEntry => a.pos ≠ b.pos)
            (fun _ _ h he => h he.symm) hpnd (c1 a ha) (c1 b hb) hab
        exact (List.Perm.pairwise_iff (R := fun a b : IndexEntry => a.pos ≠ b.pos)
          (fun h he => h he.symm) hperm).mpr hfold
      exact strictDesc_of_sorted_posNodup hsorted hpnd2
    · intro x hx y hy hynin
      have hlt := c5 y hy (fun hin => hynin (hperm.mem_iff.mpr hin)) x
        (hperm.mem_iff.mp hx)
      exact hlt

theorem claim_C4_witness :
    StrictDesc [(⟨3, 3, [], 5⟩ : IndexEntry), ⟨2, 2, [], 9⟩, ⟨1, 1, [], 9⟩,
      ⟨0, 0, [], 1⟩] ∧
    takeLatestRevset [(⟨3, 3, [], 5⟩ : IndexEntry), ⟨2, 2, [], 9⟩, ⟨1, 1, [], 9⟩,
      ⟨0, 0, [], 1⟩] 2 = [⟨2, 2, [], 9⟩, ⟨1, 1, [], 9⟩] ∧
    ((takeLatestRevset [(⟨3, 3, [], 5⟩ : IndexEntry), ⟨2, 2, [], 9⟩, ⟨1, 1, [], 9⟩,
        ⟨0, 0, [], 1⟩] 2).length
      = min 2 ([(⟨3, 3, [], 5⟩ : IndexEntry), ⟨2, 2, [], 9⟩, ⟨1, 1, [], 9⟩,
        ⟨0, 0, [], 1⟩].length) ∧
      StrictDesc (takeLatestRevset [(⟨3, 3, [], 5⟩ : IndexEntry), ⟨2, 2, [], 9⟩,
        ⟨1, 1, [], 9⟩, ⟨0, 0, [], 1⟩] 2)) := by
  have h1 : StrictDesc [(⟨3, 3, [], 5⟩ : IndexEntry), ⟨2, 2, [], 9⟩, ⟨1, 1, [], 9⟩,
      ⟨0, 0, [], 1⟩] := by decide
  have h2 := claim_C4_take_latest [(⟨3, 3, [], 5⟩ : IndexEntry), ⟨2, 2, [], 9⟩,
    ⟨1, 1, [], 9⟩, ⟨0, 0, [], 1⟩] 2 h1
  exact ⟨h1, by decide, h2.2.1, h2.2.2.2.1⟩

end Revset
